import Mathlib

/-!
# goose: a verification development of the migration engine

A shallow embedding of the Go sources of the migration engine
(`migration.go`, `migration_sql.go`, `reset.go`, `down.go`, `redo.go`,
`dialect.go`, `version.go`) together with theorems about it.

Conventions of the embedding.

* Go `int64` values are `Int`; where the range matters (`strconv.ParseInt`)
  the bounds are explicit.
* A Go `string` is a Lean `String`.  Go indexes strings by byte; the only
  bytes the embedded code looks for are ASCII (`/`, `.`, `_`, `+`, `-`, digits),
  and no byte of a multi-byte UTF-8 sequence is ASCII, so searching and
  slicing by character gives the same text.
* A Go function returning `error` returns `Option Err` (`none` is `nil`); a Go
  function returning `(T, error)` returns `T × Option Err`.
* A Go function that acts on the database takes the world before the call and
  returns the world after it.
-/

namespace Goose

/-- The text of a Go `error`. -/
abbrev Err := String

/-- The result of `errors.Wrap(err, msg)` / `errors.Wrapf`: `msg: err`. -/
def Wrap (e : Err) (msg : String) : Err := msg ++ ": " ++ e

/-! ## Standard-library functions used by `NumericComponent` -/

namespace filepath

/-- The loop of `filepath.Base` that strips trailing slashes; it works on the
reversed path. -/
def dropSlashes : List Char → List Char
  | [] => []
  | c :: cs => if c = '/' then dropSlashes cs else c :: cs

/-- Go `filepath.Base` (Unix): the last element of the path.  An empty
path gives ".", a path of slashes only gives "/". -/
def Base (path : String) : String :=
  if path.data = [] then "."
  else
    let stripped := dropSlashes path.data.reverse
    let last := (stripped.takeWhile (fun c => c ≠ '/')).reverse
    if last = [] then "/" else String.mk last

/-- The backward scan of `filepath.Ext` over the reversed path; `acc` holds
the characters already passed, in path order. -/
def extScan : List Char → List Char → List Char
  | [], _ => []
  | c :: cs, acc =>
    if c = '/' then []
    else if c = '.' then c :: acc
    else extScan cs (c :: acc)

/-- Go `filepath.Ext`: the suffix beginning at the final dot in the final
element of the path; empty if there is no dot. -/
def Ext (path : String) : String :=
  String.mk (extScan path.data.reverse [])

end filepath

namespace strings

/-- The scan of `strings.Index` for a one-byte needle, counting from `i`. -/
def indexFrom (c : Char) : List Char → Int → Int
  | [], _ => -1
  | x :: xs, i => if x = c then i else indexFrom c xs (i + 1)

/-- Go `strings.Index(s, substr)` for the one-byte needle the engine uses:
the index of the first occurrence, or -1. -/
def Index (s : String) (c : Char) : Int :=
  indexFrom c s.data 0

end strings

namespace strconv

/-- The two kinds of `strconv.NumError`. -/
inductive NumError where
  | ErrSyntax
  | ErrRange
  deriving DecidableEq, Repr

/-- The largest `uint64`. -/
def maxUint64 : Nat := 2 ^ 64 - 1

/-- The digit loop of `strconv.ParseUint(s, 10, 64)`.  `n` is the `uint64`
accumulator; products and sums wrap modulo `2 ^ 64` as in Go. -/
def parseUintLoop : List Char → Nat → Nat × Option NumError
  | [], n => (n, none)
  | c :: cs, n =>
    if '0' ≤ c ∧ c ≤ '9' then
      let d := c.toNat - '0'.toNat
      if n ≥ maxUint64 / 10 + 1 then (maxUint64, some .ErrRange)
      else
        let n10 := (n * 10) % 2 ^ 64
        let n1 := (n10 + d) % 2 ^ 64
        if n1 < n10 ∨ n1 > maxUint64 then (maxUint64, some .ErrRange)
        else parseUintLoop cs n1
    else (0, some .ErrSyntax)

/-- Go `strconv.ParseUint(s, 10, 64)`. -/
def ParseUint (s : List Char) : Nat × Option NumError :=
  if s = [] then (0, some .ErrSyntax) else parseUintLoop s 0

/-- Go `strconv.ParseInt(s, 10, 64)` on the characters of `s`. -/
def parseIntChars (s : List Char) : Int × Option NumError :=
  match s with
  | [] => (0, some .ErrSyntax)
  | c :: cs =>
    let neg := decide (c = '-')
    let digits := if c = '+' ∨ c = '-' then cs else c :: cs
    match ParseUint digits with
    | (_, some .ErrSyntax) => (0, some .ErrSyntax)
    | (un, _) =>
      let cutoff : Nat := 2 ^ 63
      if ¬ neg ∧ un ≥ cutoff then ((cutoff : Int) - 1, some .ErrRange)
      else if neg ∧ un > cutoff then (-(cutoff : Int), some .ErrRange)
      else (if neg then -(un : Int) else (un : Int), none)

/-- The message of a `strconv.NumError` of `ParseInt` (the number is shown
between plain double quotes). -/
def errText (num : String) : NumError → Err
  | .ErrSyntax => "strconv.ParseInt: parsing \"" ++ num ++ "\": invalid syntax"
  | .ErrRange => "strconv.ParseInt: parsing \"" ++ num ++ "\": value out of range"

/-- Go `strconv.ParseInt(s, 10, 64)`. -/
def ParseInt (s : String) : Int × Option NumError :=
  parseIntChars s.data

end strconv

/-! ## `migration.go`: `NumericComponent` -/

/-- Go `base[:idx]` for `0 ≤ idx ≤ len(base)`. -/
def sliceTo (s : String) (idx : Int) : String :=
  String.mk (s.data.take idx.toNat)

/-- `NumericComponent` of `migration.go`: the version number of a migration
file named `XXX_descriptivename.ext`. -/
def NumericComponent (name : String) : Int × Option Err :=
  let base := filepath.Base name
  let ext := filepath.Ext base
  if ext ≠ ".go" ∧ ext ≠ ".sql" then
    (0, some "not a recognized migration file type")
  else
    let idx := strings.Index base '_'
    if idx < 0 then (0, some "no separator found")
    else
      let (n, e) := strconv.ParseInt (sliceTo base idx)
      if e = none ∧ n ≤ 0 then
        (0, some "migration IDs must be greater than zero")
      else (n, e.map (strconv.errText (sliceTo base idx)))

/-- The text of `base` before its first `_` (all of it when there is none). -/
def textBeforeSeparator (base : String) : String :=
  String.mk (base.data.takeWhile (fun c => c ≠ '_'))

/-- The number a text of decimal digits stands for, read after the digits of
`n`. -/
def digitsValue : List Char → Nat → Nat
  | [], n => n
  | c :: cs, n => digitsValue cs (n * 10 + (c.toNat - '0'.toNat))

/-- A text is the base-10 numeral of the 64-bit integer `n`: an optional sign,
then one or more digits, with a value from `-2 ^ 63` to `2 ^ 63 - 1`. -/
def IsInt64Numeral (s : List Char) (n : Int) : Prop :=
  ∃ ds : List Char, ds ≠ [] ∧ (∀ c ∈ ds, '0' ≤ c ∧ c ≤ '9') ∧
    (((s = ds ∨ s = '+' :: ds) ∧ n = (digitsValue ds 0 : Int) ∧ n < 2 ^ 63) ∨
      (s = '-' :: ds ∧ n = -(digitsValue ds 0 : Int) ∧ -(2 ^ 63) ≤ n))

/-- The four grounds on which a file name is refused: an extension that is
neither `.go` nor `.sql`, no `_` in the base name, a text before the first `_`
that is not the base-10 numeral of a 64-bit integer, or such an integer that is
not positive. -/
def Refused (name : String) : Prop :=
  (filepath.Ext (filepath.Base name) ≠ ".go" ∧ filepath.Ext (filepath.Base name) ≠ ".sql")
  ∨ '_' ∉ (filepath.Base name).data
  ∨ (¬ ∃ n, IsInt64Numeral (textBeforeSeparator (filepath.Base name)).data n)
  ∨ (∃ n, IsInt64Numeral (textBeforeSeparator (filepath.Base name)).data n ∧ n ≤ 0)

/-! ## `version.go`, `dialect.go`: ledger table name and SQL dialects -/

/-- The dialect types of `dialect.go`, one per database engine. -/
inductive SQLDialect where
  | PostgresDialect
  | MySQLDialect
  | SqlServerDialect
  | Sqlite3Dialect
  | RedshiftDialect
  | TiDBDialect
  | ClickHouseDialect
  deriving DecidableEq, Repr

/-- The package-level variables: `tableName` of `version.go` and `dialect` of
`dialect.go`. -/
structure Config where
  tableName : String
  dialect : SQLDialect
  deriving DecidableEq, Repr

/-- The values the package-level variables start with. -/
def Config.initial : Config :=
  { tableName := "goose_db_version", dialect := .PostgresDialect }

/-- `TableName` returns goose db version table name. -/
def TableName (cfg : Config) : String := cfg.tableName

/-- `SetTableName` sets goose db version table name. -/
def SetTableName (n : String) (cfg : Config) : Config :=
  { cfg with tableName := n }

/-- `GetDialect` gets the SQLDialect. -/
def GetDialect (cfg : Config) : SQLDialect := cfg.dialect

/-- `SetDialect` sets the SQLDialect; an unknown name leaves it as it was. -/
def SetDialect (d : String) (cfg : Config) : Config × Option Err :=
  if d = "postgres" then ({ cfg with dialect := .PostgresDialect }, none)
  else if d = "mysql" then ({ cfg with dialect := .MySQLDialect }, none)
  else if d = "sqlite3" then ({ cfg with dialect := .Sqlite3Dialect }, none)
  else if d = "mssql" then ({ cfg with dialect := .SqlServerDialect }, none)
  else if d = "redshift" then ({ cfg with dialect := .RedshiftDialect }, none)
  else if d = "tidb" then ({ cfg with dialect := .TiDBDialect }, none)
  else if d = "clickhouse" then ({ cfg with dialect := .ClickHouseDialect }, none)
  else (cfg, some ("\"" ++ d ++ "\": unknown dialect"))

/-- The names `SetDialect` accepts. -/
def supportedDialects : List String :=
  ["postgres", "mysql", "sqlite3", "mssql", "redshift", "tidb", "clickhouse"]

/-- `createVersionTableSQL` of each dialect: sql string to create the db version table. -/
def SQLDialect.createVersionTableSQL (d : SQLDialect) (cfg : Config) : String :=
  match d with
  | .PostgresDialect =>
    "CREATE TABLE " ++ TableName cfg ++ " (\n            \tid serial NOT NULL,\n\t\t\t\tversion_id bigint NOT NULL,\n\t\t\t\tservice varchar(100) NOT NULL,\n                is_applied boolean NOT NULL,\n                tstamp timestamp NULL default now(),\n                PRIMARY KEY(id)\n            );"
  | .MySQLDialect =>
    "CREATE TABLE " ++ TableName cfg ++ " (\n                id serial NOT NULL,\n\t\t\t\tversion_id bigint NOT NULL,\n\t\t\t\tservice varchar(100) NOT NULL,\n                is_applied boolean NOT NULL,\n                tstamp timestamp NULL default now(),\n                PRIMARY KEY(id)\n            );"
  | .SqlServerDialect =>
    "CREATE TABLE " ++ TableName cfg ++ " (\n                id INT NOT NULL IDENTITY(1,1) PRIMARY KEY,\n                version_id BIGINT NOT NULL,\n                is_applied BIT NOT NULL,\n                tstamp DATETIME NULL DEFAULT CURRENT_TIMESTAMP\n            );"
  | .Sqlite3Dialect =>
    "CREATE TABLE " ++ TableName cfg ++ " (\n                id INTEGER PRIMARY KEY AUTOINCREMENT,\n                version_id INTEGER NOT NULL,\n                is_applied INTEGER NOT NULL,\n                tstamp TIMESTAMP DEFAULT (datetime(\x27now\x27))\n            );"
  | .RedshiftDialect =>
    "CREATE TABLE " ++ TableName cfg ++ " (\n            \tid integer NOT NULL identity(1, 1),\n                version_id bigint NOT NULL,\n                is_applied boolean NOT NULL,\n                tstamp timestamp NULL default sysdate,\n                PRIMARY KEY(id)\n            );"
  | .TiDBDialect =>
    "CREATE TABLE " ++ TableName cfg ++ " (\n                id BIGINT UNSIGNED NOT NULL AUTO_INCREMENT UNIQUE,\n                version_id bigint NOT NULL,\n                is_applied boolean NOT NULL,\n                tstamp timestamp NULL default now(),\n                PRIMARY KEY(id)\n            );"
  | .ClickHouseDialect =>
    "\n    CREATE TABLE goose_db_version (\n      version_id Int64,\n      is_applied UInt8,\n      date Date default now(),\n      tstamp DateTime default now()\n    ) Engine = MergeTree(date, (date), 8192)\n\t"

/-- `insertVersionSQL` of each dialect: sql string to insert a version table row. -/
def SQLDialect.insertVersionSQL (d : SQLDialect) (cfg : Config) (service : String) : String :=
  match d with
  | .PostgresDialect =>
    "INSERT INTO " ++ TableName cfg ++ " (version_id, is_applied, service) VALUES (?, ?, \x27" ++ service ++ "\x27);"
  | .MySQLDialect =>
    "INSERT INTO " ++ TableName cfg ++ " (version_id, is_applied) VALUES (?, ?);"
  | .SqlServerDialect =>
    "INSERT INTO " ++ TableName cfg ++ " (version_id, is_applied) VALUES (?, ?);"
  | .Sqlite3Dialect =>
    "INSERT INTO " ++ TableName cfg ++ " (version_id, is_applied) VALUES (?, ?);"
  | .RedshiftDialect =>
    "INSERT INTO " ++ TableName cfg ++ " (version_id, is_applied) VALUES (?, ?);"
  | .TiDBDialect =>
    "INSERT INTO " ++ TableName cfg ++ " (version_id, is_applied) VALUES (?, ?);"
  | .ClickHouseDialect =>
    "INSERT INTO " ++ TableName cfg ++ " (version_id, is_applied) VALUES (?, ?)"

/-- `deleteVersionSQL` of each dialect: sql string to delete version. -/
def SQLDialect.deleteVersionSQL (d : SQLDialect) (cfg : Config) (service : String) : String :=
  match d with
  | .PostgresDialect =>
    "DELETE FROM " ++ TableName cfg ++ " WHERE version_id=$1 and service=\x27" ++ service ++ "\x27;"
  | .MySQLDialect =>
    "DELETE FROM " ++ TableName cfg ++ " WHERE version_id=?;"
  | .SqlServerDialect =>
    "DELETE FROM " ++ TableName cfg ++ " WHERE version_id=@p1;"
  | .Sqlite3Dialect =>
    "DELETE FROM " ++ TableName cfg ++ " WHERE version_id=?;"
  | .RedshiftDialect =>
    "DELETE FROM " ++ TableName cfg ++ " WHERE version_id=$1;"
  | .TiDBDialect =>
    "DELETE FROM " ++ TableName cfg ++ " WHERE version_id=?;"
  | .ClickHouseDialect =>
    "ALTER TABLE " ++ TableName cfg ++ " DELETE WHERE version_id = ?"

/-- `migrationSQL` of each dialect: sql string to retrieve migrations. -/
def SQLDialect.migrationSQL (d : SQLDialect) (cfg : Config) (service : String) : String :=
  match d with
  | .PostgresDialect =>
    "SELECT tstamp, is_applied FROM " ++ TableName cfg ++ " WHERE version_id=$1 and service=\x27" ++ service ++ "\x27 ORDER BY tstamp DESC LIMIT 1"
  | .MySQLDialect =>
    "SELECT tstamp, is_applied FROM " ++ TableName cfg ++ " WHERE version_id=? ORDER BY tstamp DESC LIMIT 1"
  | .SqlServerDialect =>
    "\nWITH Migrations AS\n(\n    SELECT tstamp, is_applied,\n    ROW_NUMBER() OVER (ORDER BY tstamp) AS \x27RowNumber\x27\n    FROM " ++ TableName cfg ++ "\n\tWHERE version_id=@p1\n)\nSELECT tstamp, is_applied\nFROM Migrations\nWHERE RowNumber BETWEEN 1 AND 2\nORDER BY tstamp DESC\n"
  | .Sqlite3Dialect =>
    "SELECT tstamp, is_applied FROM " ++ TableName cfg ++ " WHERE version_id=? ORDER BY tstamp DESC LIMIT 1"
  | .RedshiftDialect =>
    "SELECT tstamp, is_applied FROM " ++ TableName cfg ++ " WHERE version_id=$1 ORDER BY tstamp DESC LIMIT 1"
  | .TiDBDialect =>
    "SELECT tstamp, is_applied FROM " ++ TableName cfg ++ " WHERE version_id=? ORDER BY tstamp DESC LIMIT 1"
  | .ClickHouseDialect =>
    "SELECT tstamp, is_applied FROM " ++ TableName cfg ++ " WHERE version_id = ? ORDER BY tstamp DESC LIMIT 1"

/-- `dbVersionQuery` of each dialect: the SQL text that `dbVersionQuery` sends with `db.Raw(...).Rows()`. -/
def SQLDialect.dbVersionQuerySQL (d : SQLDialect) (cfg : Config) (service : String) : String :=
  match d with
  | .PostgresDialect =>
    "SELECT version_id, is_applied from " ++ TableName cfg ++ " where service=\x27" ++ service ++ "\x27 ORDER BY id DESC"
  | .MySQLDialect =>
    "SELECT version_id, is_applied from " ++ TableName cfg ++ " ORDER BY id DESC"
  | .SqlServerDialect =>
    "SELECT version_id, is_applied FROM " ++ TableName cfg ++ " ORDER BY id DESC"
  | .Sqlite3Dialect =>
    "SELECT version_id, is_applied from " ++ TableName cfg ++ " ORDER BY id DESC"
  | .RedshiftDialect =>
    "SELECT version_id, is_applied from " ++ TableName cfg ++ " ORDER BY id DESC"
  | .TiDBDialect =>
    "SELECT version_id, is_applied from " ++ TableName cfg ++ " ORDER BY id DESC"
  | .ClickHouseDialect =>
    "SELECT version_id, is_applied FROM " ++ TableName cfg ++ " ORDER BY tstamp DESC LIMIT 1"

/-! ## The database the engine talks to

The engine reaches the database through gorm: `db.Begin`, `Exec`, `Commit`,
`Rollback`, and a row cursor for queries.  The database is modelled by its
committed state; a transaction is a working copy that `Commit` installs and
`Rollback` drops.

* The state of the user tables is the list of script statements carried out
  so far, oldest first.
* The ledger table holds its rows newest first (the order of `ORDER BY id
  DESC`); it is `none` until the table has been created.
* The statements the engine sends for its own bookkeeping have the meaning of
  the SQL of the default dialect (`PostgresDialect`): rows carry their service,
  and deleting is restricted to one service.
* Every `Begin`, `Exec`, `Commit` and `Rollback` is one round trip, and so
  are the full-ledger query of `dbVersionQuery` and the fetch of each of its
  rows; the environment decides which round trips fail, and which fetched rows
  do not scan.
* The full-ledger query selects the rows that the SQL of the dialect in use
  selects.
* Script statements and Go migration functions act on the user tables, never
  on the ledger table.
-/

/-- One row of the ledger table (the `tstamp` column, set by the server, and
the `id` column, which the order of the list stands for, are left out). -/
structure LedgerRow where
  version_id : Int
  service : String
  is_applied : Bool
  deriving DecidableEq, Repr

/-- The committed state of the database, or the working copy of a
transaction. -/
structure Database where
  schema : List String
  ledger : Option (List LedgerRow)
  deriving DecidableEq, Repr

/-- What the engine asks the database to execute. -/
inductive Statement where
  /-- A statement of a migration script. -/
  | script (query : String)
  /-- The SQL of `insertVersionSQL(service)` with parameters `v`, `applied`. -/
  | insertVersion (service : String) (v : Int) (applied : Bool)
  /-- The SQL of `deleteVersionSQL(service)` with parameter `v`. -/
  | deleteVersion (service : String) (v : Int)
  /-- The SQL of `createVersionTableSQL()`. -/
  | createVersionTable
  deriving DecidableEq, Repr

/-- The effect of a statement that the server carries out. -/
def Statement.apply : Statement → Database → Except Err Database
  | .script query, d => .ok { d with schema := d.schema ++ [query] }
  | .insertVersion service v applied, d =>
    match d.ledger with
    | none => .error "no such table"
    | some rows =>
      .ok { d with ledger := some (⟨v, service, applied⟩ :: rows) }
  | .deleteVersion service v, d =>
    match d.ledger with
    | none => .error "no such table"
    | some rows =>
      let kept := rows.filter (fun r => ¬ (r.version_id = v ∧ r.service = service))
      .ok { d with ledger := some kept }
  | .createVersionTable, d =>
    match d.ledger with
    | none => .ok { d with ledger := some [] }
    | some _ => .error "table already exists"

/-- `MigrationRecord` struct of `migration.go` (without `TStamp`). -/
structure MigrationRecord where
  VersionID : Int
  IsApplied : Bool
  deriving DecidableEq, Repr

/-- A row cursor (`*sql.Rows`): for each row in turn, what `rows.Scan`
gives. -/
abbrev Rows := List (Except Err MigrationRecord)

/-- The records of one service in a ledger, newest first: what
`SELECT version_id, is_applied ... where service=... ORDER BY id DESC`
selects. -/
def recordsOf (service : String) (ledger : List LedgerRow) : List MigrationRecord :=
  (ledger.filter (fun r => r.service = service)).map (fun r => ⟨r.version_id, r.is_applied⟩)

/-- Modelled from the spec: the scan of the version ledger, which "scans all
events in insertion order for the service" (its source, `migrate.go`, is not
at hand): the events of the service, newest first.  The one failure the spec
gives this scan is an absent ledger table. -/
def ledgerEvents (service : String) (d : Database) : Except Err Rows :=
  match d.ledger with
  | none => .error "no such table"
  | some rows => .ok ((recordsOf service rows).map .ok)

/-- The rows that the SQL of `dbVersionQuery` of each dialect selects from the
ledger table, in the order it gives them.  `PostgresDialect` selects the rows of
the service, `ORDER BY id DESC`; `ClickHouseDialect` selects
`ORDER BY tstamp DESC LIMIT 1`, the newest row alone, of whatever service; the
other dialects select every row, `ORDER BY id DESC`, with no condition on the
service. -/
def SQLDialect.dbVersionRows (d : SQLDialect) (service : String)
    (ledger : List LedgerRow) : List MigrationRecord :=
  match d with
  | .PostgresDialect => recordsOf service ledger
  | .ClickHouseDialect => (ledger.take 1).map (fun r => ⟨r.version_id, r.is_applied⟩)
  | .MySQLDialect => ledger.map (fun r => ⟨r.version_id, r.is_applied⟩)
  | .SqlServerDialect => ledger.map (fun r => ⟨r.version_id, r.is_applied⟩)
  | .Sqlite3Dialect => ledger.map (fun r => ⟨r.version_id, r.is_applied⟩)
  | .RedshiftDialect => ledger.map (fun r => ⟨r.version_id, r.is_applied⟩)
  | .TiDBDialect => ledger.map (fun r => ⟨r.version_id, r.is_applied⟩)

/-- One call of `Migration.Up` or `Migration.Down`, as recorded in the
history of calls: the version, the direction, and whether it returned `nil`. -/
structure RunRecord where
  Version : Int
  direction : Bool
  ok : Bool
  deriving DecidableEq, Repr

/-- The world the engine acts on: the database, the number of round trips
made so far, the lines written with `log`, and the history of `Up`/`Down`
calls (kept for stating what an operation executed; the engine never reads
it). -/
structure World where
  db : Database
  tick : Nat
  log : List String
  trace : List RunRecord
  deriving DecidableEq, Repr

/-- `MigrationFn` used in go migrations: the function receives the transaction
and works on the user tables. -/
abbrev MigrationFn := List String → Except Err (List String)

/-- `Migration` struct of `migration.go`. -/
structure Migration where
  Service : String
  Version : Int
  /-- next version, or -1 if none -/
  Next : Int
  /-- previous version, -1 if none -/
  Previous : Int
  /-- path to .sql script or go file -/
  Source : String
  Registered : Bool
  /-- Up go migration function (`none` is `nil`) -/
  UpFn : Option MigrationFn
  /-- Down go migration function (`none` is `nil`) -/
  DownFn : Option MigrationFn

/-- `Migrations` slice (declared in a file that is not among the sources). -/
abbrev Migrations := List Migration

/-- What the engine takes from outside: which round trips fail, the file
system, the two functions of the package whose source is not at hand,
`parseSQLMigration` and `CollectMigrations` (called with `minVersion` and
`maxVersion`, that is, for the whole catalog), and the package-level variables
as they were set at startup (the default dialect unless said otherwise). -/
structure Env where
  /-- the error of the round trip with this number, if it fails -/
  fault : Nat → Option Err
  /-- `os.Open`: the content of the file at a path -/
  Open : String → Except Err String
  /-- `parseSQLMigration(f, direction)`: the statements and `useTx` -/
  parseSQLMigration : String → Bool → Except Err (List String × Bool)
  /-- `CollectMigrations(service, dir, minVersion, maxVersion)` -/
  CollectMigrations : String → String → Except Err Migrations
  /-- the package-level variables `tableName` and `dialect` -/
  cfg : Config := Config.initial

/-- `db.Begin()`: a working copy of the committed state, or `tx.Error`. -/
def Begin (env : Env) (w : World) : Except Err Database × World :=
  match env.fault w.tick with
  | some e => (.error e, { w with tick := w.tick + 1 })
  | none => (.ok w.db, { w with tick := w.tick + 1 })

/-- `Exec(q, ...)` on the state `d` (a transaction's working copy, or the
committed state): the error if any, and the state afterwards. -/
def Exec (env : Env) (q : Statement) (d : Database) (w : World) :
    Option Err × Database × World :=
  match env.fault w.tick with
  | some e => (some e, d, { w with tick := w.tick + 1 })
  | none =>
    match q.apply d with
    | .error e => (some e, d, { w with tick := w.tick + 1 })
    | .ok d1 => (none, d1, { w with tick := w.tick + 1 })

/-- `tx.Commit()`: installs the working copy unless the round trip fails. -/
def Commit (env : Env) (tx : Database) (w : World) : Option Err × World :=
  match env.fault w.tick with
  | some e => (some e, { w with tick := w.tick + 1 })
  | none => (none, { w with db := tx, tick := w.tick + 1 })

/-- `tx.Rollback()`: the working copy is dropped; its result is not looked
at by the engine. -/
def Rollback (w : World) : World :=
  { w with tick := w.tick + 1 }

/-- `log.Println` / `log.Printf`: one more line in the log. -/
def World.println (w : World) (line : String) : World :=
  { w with log := w.log ++ [line] }

/-- The cursor over the selected rows, from the step with number `n` on.
`rows.Next()` for the row at hand is one round trip: when it fails, `Next`
returns false and the loop over the rows ends there, as it does after the last
row (the loop does not look at `rows.Err()`).  `rows.Scan` of a fetched row is
the step after it, and gives the record unless the environment has it fail. -/
def cursor (env : Env) : List MigrationRecord → Nat → Rows
  | [], _ => []
  | r :: rest, n =>
    match env.fault n with
    | some _ => []
    | none =>
      (match env.fault (n + 1) with
        | some e => .error e
        | none => .ok r) :: cursor env rest (n + 2)

/-- `dbVersionQuery(db, service)` of the dialect in use: `db.Raw(...).Rows()`
is one round trip; it fails when the round trip fails or the ledger table does
not exist, and otherwise gives the cursor over the rows its SQL selects. -/
def dbVersionQuery (env : Env) (service : String) (w : World) : Except Err Rows × World :=
  match env.fault w.tick with
  | some e => (.error e, { w with tick := w.tick + 1 })
  | none =>
    match w.db.ledger with
    | none => (.error "no such table", { w with tick := w.tick + 1 })
    | some ledger =>
      (.ok (cursor env ((GetDialect env.cfg).dbVersionRows service ledger) (w.tick + 1)),
        { w with tick := w.tick + 1 })

/-! ## `migration_sql.go` -/

/-- The loop `for _, query := range statements` of `runSQLMigration`, against
the state `d`: the first failure with its statement, if any. -/
def execStatements (env : Env) :
    List String → Database → World → Option (Err × String) × Database × World
  | [], d, w => (none, d, w)
  | query :: rest, d, w =>
    match Exec env (.script query) d w with
    | (some e, d1, w1) => (some (e, query), d1, w1)
    | (none, d1, w1) => execStatements env rest d1 w1

/-- The error text of a failed script statement (`clearStatement`, which only
strips comments and blank lines from the quoted text, is left out). -/
def queryFailed (e : Err) (query : String) : Err :=
  Wrap e ("failed to execute SQL query \"" ++ query ++ "\"")

/-- `runSQLMigration`: run a migration specified in raw SQL. -/
def runSQLMigration (env : Env) (statements : List String) (useTx : Bool)
    (service : String) (v : Int) (direction : Bool) (w : World) : Option Err × World :=
  if useTx then
    -- TRANSACTION.
    match Begin env w with
    | (.error e, w1) => (some (Wrap e "failed to begin transaction"), w1)
    | (.ok tx, w1) =>
      match execStatements env statements tx w1 with
      | (some (e, query), _, w2) => (some (queryFailed e query), Rollback w2)
      | (none, tx2, w2) =>
        if direction then
          match Exec env (.insertVersion service v direction) tx2 w2 with
          | (some e, _, w3) =>
            (some (Wrap e "failed to insert new goose version"), Rollback w3)
          | (none, tx3, w3) =>
            match Commit env tx3 w3 with
            | (some e, w4) => (some (Wrap e "failed to commit transaction"), w4)
            | (none, w4) => (none, w4)
        else
          match Exec env (.deleteVersion service v) tx2 w2 with
          | (some e, _, w3) =>
            (some (Wrap e "failed to delete goose version"), Rollback w3)
          | (none, tx3, w3) =>
            match Commit env tx3 w3 with
            | (some e, w4) => (some (Wrap e "failed to commit transaction"), w4)
            | (none, w4) => (none, w4)
  else
    -- NO TRANSACTION.
    match execStatements env statements w.db w with
    | (some (e, query), d1, w1) => (some (queryFailed e query), { w1 with db := d1 })
    | (none, d1, w1) =>
      match Exec env (.insertVersion service v direction) d1 w1 with
      | (some e, d2, w2) =>
        (some (Wrap e "failed to insert new goose version"), { w2 with db := d2 })
      | (none, d2, w2) => (none, { w2 with db := d2 })

/-! ## `migration.go`: running one migration -/

/-- The `.go` case of `Migration.run`. -/
def Migration.runGo (m : Migration) (env : Env) (direction : Bool) (w : World) :
    Option Err × World :=
  if ¬ m.Registered then
    (some ("ERROR " ++ m.Source ++
      ": failed to run Go migration: Go functions must be registered and built into a custom binary"), w)
  else
    match Begin env w with
    | (.error e, w1) => (some (Wrap e "ERROR failed to begin transaction"), w1)
    | (.ok tx, w1) =>
      let fn := if direction then m.UpFn else m.DownFn
      -- Run Go migration function.
      match (match fn with
          | some f => f tx.schema
          | none => .ok tx.schema) with
      | .error e =>
        (some (Wrap e ("ERROR " ++ filepath.Base m.Source ++
          ": failed to run Go migration function")), Rollback w1)
      | .ok schema1 =>
        let tx1 : Database := { tx with schema := schema1 }
        match (if direction then Exec env (.insertVersion m.Service m.Version direction) tx1 w1
            else Exec env (.deleteVersion m.Service m.Version) tx1 w1) with
        | (some e, _, w2) => (some (Wrap e "ERROR failed to execute transaction"), Rollback w2)
        | (none, tx2, w2) =>
          match Commit env tx2 w2 with
          | (some e, w3) => (some (Wrap e "ERROR failed to commit transaction"), w3)
          | (none, w3) =>
            if fn.isSome then (none, w3.println ("OK    " ++ filepath.Base m.Source))
            else (none, w3.println ("EMPTY " ++ filepath.Base m.Source))

/-- The `.sql` case of `Migration.run`. -/
def Migration.runSQL (m : Migration) (env : Env) (direction : Bool) (w : World) :
    Option Err × World :=
  match env.Open m.Source with
  | .error e =>
    (some (Wrap e ("ERROR " ++ filepath.Base m.Source ++
      ": failed to open SQL migration file")), w)
  | .ok f =>
    match env.parseSQLMigration f direction with
    | .error e =>
      (some (Wrap e ("ERROR " ++ filepath.Base m.Source ++
        ": failed to parse SQL migration file")), w)
    | .ok (statements, useTx) =>
      match runSQLMigration env statements useTx m.Service m.Version direction w with
      | (some e, w1) =>
        (some (Wrap e ("ERROR " ++ filepath.Base m.Source ++
          ": failed to run SQL migration")), w1)
      | (none, w1) =>
        if statements.length > 0 then (none, w1.println ("OK    " ++ filepath.Base m.Source))
        else (none, w1.println ("EMPTY " ++ filepath.Base m.Source))

/-- `Migration.run`: the switch on the extension of the source. -/
def Migration.run (m : Migration) (env : Env) (direction : Bool) (w : World) :
    Option Err × World :=
  if filepath.Ext m.Source = ".sql" then m.runSQL env direction w
  else if filepath.Ext m.Source = ".go" then m.runGo env direction w
  else (none, w)

/-- The entry the history of calls gets for one call. -/
def World.record (w : World) (m : Migration) (direction : Bool) (err : Option Err) : World :=
  { w with trace := w.trace ++ [⟨m.Version, direction, err.isNone⟩] }

/-- `Migration.Up` runs an up migration. -/
def Migration.Up (m : Migration) (env : Env) (w : World) : Option Err × World :=
  match m.run env true w with
  | (some e, w1) => (some e, w1.record m true (some e))
  | (none, w1) => (none, w1.record m true none)

/-- `Migration.Down` runs a down migration. -/
def Migration.Down (m : Migration) (env : Env) (w : World) : Option Err × World :=
  match m.run env false w with
  | (some e, w1) => (some e, w1.record m false (some e))
  | (none, w1) => (none, w1.record m false none)

/-! ## `reset.go` -/

/-- A Go `map[int64]bool`: the value of each key that is present. -/
abbrev StatusMap := Int → Option Bool

/-- Go `statuses[v]`: the zero value `false` when the key is missing. -/
def StatusMap.index (statuses : StatusMap) (v : Int) : Bool :=
  (statuses v).getD false

/-- The loop `for rows.Next()` of `dbMigrationsStatus`: the most recent
record for each migration specifies whether it has been applied or rolled
back. -/
def statusLoop : Rows → StatusMap → Except Err StatusMap
  | [], result => .ok result
  | .error e :: _, _ => .error (Wrap e "failed to scan row")
  | .ok row :: rest, result =>
    if (result row.VersionID).isSome then statusLoop rest result
    else statusLoop rest (Function.update result row.VersionID (some row.IsApplied))

/-- The number of steps the loop of `dbMigrationsStatus` takes over a cursor:
a `rows.Next()` and a `rows.Scan` for each row up to the first that does not
scan, and the `rows.Next()` that ends the loop. -/
def scanned : Rows → Nat
  | [] => 1
  | .error _ :: _ => 2
  | .ok _ :: rest => scanned rest + 2

/-- `dbMigrationsStatus`: a failed query gives an empty map and no error. -/
def dbMigrationsStatus (env : Env) (service : String) (w : World) :
    Except Err StatusMap × World :=
  match dbVersionQuery env service w with
  | (.error _, w1) => (.ok (fun _ => none), w1)
  | (.ok rows, w1) =>
    (statusLoop rows (fun _ => none), { w1 with tick := w1.tick + scanned rows })

/-- Modelled from the spec: the order of `Migrations` (its `Len`, `Swap` and
`Less` are declared in a file that is not among the sources), which is by
strict integer comparison of versions; this is `sort.Sort(sort.Reverse(ms))`,
the catalog from the highest version to the lowest.  For distinct versions
there is only one such arrangement. -/
def sortReverse (ms : Migrations) : Migrations :=
  ms.insertionSort (fun a b => b.Version ≤ a.Version)

/-- The order of `sortReverse` compares any two migrations. -/
instance : IsTotal Migration (fun a b => b.Version ≤ a.Version) :=
  ⟨fun a b => le_total b.Version a.Version⟩

/-- The order of `sortReverse` is transitive. -/
instance : IsTrans Migration (fun a b => b.Version ≤ a.Version) :=
  ⟨fun _ _ _ h1 h2 => le_trans h2 h1⟩

/-- The loop `for _, migration := range migrations` of `Reset`. -/
def resetLoop (env : Env) (statuses : StatusMap) : Migrations → World → Option Err × World
  | [], w => (none, w)
  | migration :: rest, w =>
    if ¬ statuses.index migration.Version then resetLoop env statuses rest w
    else
      match migration.Down env w with
      | (some e, w1) => (some (Wrap e "failed to db-down"), w1)
      | (none, w1) => resetLoop env statuses rest w1

/-- `Reset` rolls back all migrations. -/
def Reset (env : Env) (service dir : String) (w : World) : Option Err × World :=
  match env.CollectMigrations service dir with
  | .error e => (some (Wrap e "failed to collect migrations"), w)
  | .ok migrations =>
    match dbMigrationsStatus env service w with
    | (.error e, w1) => (some (Wrap e "failed to get status of migrations"), w1)
    | (.ok statuses, w1) => resetLoop env statuses (sortReverse migrations) w1

/-! ## The version ledger (its source, `migrate.go`, is not at hand) -/

/-- All rows of a cursor, or the first scan error. -/
def scanAll : Rows → Except Err (List MigrationRecord)
  | [] => .ok []
  | .error e :: _ => .error (Wrap e "failed to scan row")
  | .ok row :: rest =>
    match scanAll rest with
    | .error e => .error e
    | .ok rows => .ok (row :: rows)

/-- Modelled from the spec: the first-row-per-version reduction of the version
ledger, "keeping, per distinct version, only the first (most-recent-by-insertion)
row encountered". -/
def retained : List MigrationRecord → List MigrationRecord
  | [] => []
  | row :: rest => row :: (retained rest).filter (fun r => r.VersionID ≠ row.VersionID)

/-- The largest number of a list, 0 for the empty list. -/
def maxOrZero : List Int → Int
  | [] => 0
  | x :: xs => xs.foldl max x

/-- Modelled from the spec: the versions "whose retained row has
`appliedFlag = true`". -/
def appliedVersions (rows : List MigrationRecord) : List Int :=
  ((retained rows).filter (fun r => r.IsApplied)).map (fun r => r.VersionID)

/-- Modelled from the spec: the current version of a service, "the highest
version number for which the most-recently-inserted surviving event has
`appliedFlag = true`", 0 if there is none (and 0 while the ledger table does
not exist). -/
def currentVersion (service : String) (d : Database) : Int :=
  match d.ledger with
  | none => 0
  | some ledger => maxOrZero (appliedVersions (recordsOf service ledger))

/-- Modelled from the spec: `GetDBVersion` (`currentVersion(service)` of the
version ledger; `migrate.go` is not among the sources).  It scans the events
of the service, keeps the first row of each version and returns the largest
version whose kept row is applied, 0 if none.  An absent ledger table is
version 0 and is created on the spot. -/
def GetDBVersion (env : Env) (service : String) (w : World) : (Int × Option Err) × World :=
  match ledgerEvents service w.db with
  | .error _ =>
    match Exec env .createVersionTable w.db w with
    | (e, d1, w1) => ((0, e), { w1 with db := d1 })
  | .ok rows =>
    match scanAll rows with
    | .error e => ((0, some e), w)
    | .ok records => ((maxOrZero (appliedVersions records), none), w)

/-- Modelled from the spec: `Migrations.Current`, "`current(version)` lookup
returns the step whose version equals the argument, or fails with
`NoSuchVersion` if none exists". -/
def Migrations.Current (ms : Migrations) (version : Int) : Except Err Migration :=
  match ms.find? (fun m => m.Version = version) with
  | some m => .ok m
  | none => .error "no current version found"

/-! ## `down.go`, `redo.go` -/

/-- The line `DownTo` logs when it stops. -/
def noMigrationsLine (currentVersion : Int) : String :=
  "goose: no migrations to run. current version: " ++ toString currentVersion

/-- The loop `for { ... }` of `DownTo`, for at most `fuel` iterations; `none`
when the iterations are used up before the loop returns. -/
def downToLoop (env : Env) (service : String) (migrations : Migrations) (version : Int) :
    Nat → World → Option (Option Err × World)
  | 0, _ => none
  | fuel + 1, w =>
    match GetDBVersion env service w with
    | ((_, some err), w1) => some (some err, w1)
    | ((currentVersion, none), w1) =>
      match migrations.Current currentVersion with
      | .error _ => some (none, w1.println (noMigrationsLine currentVersion))
      | .ok current =>
        if current.Version ≤ version then
          some (none, w1.println (noMigrationsLine currentVersion))
        else
          match current.Down env w1 with
          | (some err, w2) => some (some err, w2)
          | (none, w2) => downToLoop env service migrations version fuel w2

/-- `DownTo` rolls back migrations to a specific version. -/
def DownTo (env : Env) (service dir : String) (version : Int) (fuel : Nat) (w : World) :
    Option (Option Err × World) :=
  match env.CollectMigrations service dir with
  | .error err => some (some err, w)
  | .ok migrations => downToLoop env service migrations version fuel w

/-- `Redo` rolls back the most recently applied migration, then runs it
again. -/
def Redo (env : Env) (service dir : String) (w : World) : Option Err × World :=
  match GetDBVersion env service w with
  | ((_, some err), w1) => (some err, w1)
  | ((currentVersion, none), w1) =>
    match env.CollectMigrations service dir with
    | .error err => (some err, w1)
    | .ok migrations =>
      match migrations.Current currentVersion with
      | .error err => (some err, w1)
      | .ok current =>
        match current.Down env w1 with
        | (some err, w2) => (some err, w2)
        | (none, w2) =>
          match current.Up env w2 with
          | (some err, w3) => (some err, w3)
          | (none, w3) => (none, w3)

/-! ## Vocabulary of the statements about the ledger -/

/-- The ledger after the bookkeeping write of a successful run: an up
migration inserts an applied row; a down migration deletes the rows of the
version when it runs in a transaction, and inserts a row that is not applied
when it runs without one. -/
def ledgerWrite (inTx : Bool) (service : String) (v : Int) (direction : Bool)
    (ledger : List LedgerRow) : List LedgerRow :=
  if direction then ⟨v, service, true⟩ :: ledger
  else if inTx then ledger.filter (fun r => ¬ (r.version_id = v ∧ r.service = service))
  else ⟨v, service, false⟩ :: ledger

/-- The applied flag of the most recent row of a version in the ledger of a
service, `none` when the version has no row. -/
def latestFlag (service : String) (ledger : List LedgerRow) (v : Int) : Option Bool :=
  ((recordsOf service ledger).find? (fun r => r.VersionID = v)).map (fun r => r.IsApplied)

/-- A version is applied: its most recent row says so. -/
def Applied (service : String) (ledger : List LedgerRow) (v : Int) : Prop :=
  latestFlag service ledger v = some true

instance (service : String) (ledger : List LedgerRow) (v : Int) :
    Decidable (Applied service ledger v) :=
  inferInstanceAs (Decidable (_ = _))

/-- A source file the catalog can hold: a `.sql` script or a `.go` file. -/
def RunnableSource (source : String) : Prop :=
  filepath.Ext source = ".sql" ∨ filepath.Ext source = ".go"

instance (source : String) : Decidable (RunnableSource source) :=
  inferInstanceAs (Decidable (_ ∨ _))

/-! ## A small catalog, for stating concrete scenarios -/

/-- A SQL script step of service `default`. -/
def scriptStep (v : Int) (source : String) : Migration :=
  { Service := "default", Version := v, Next := -1, Previous := -1, Source := source,
    Registered := false, UpFn := none, DownFn := none }

/-- A registered Go step of service `default`. -/
def goStep (v : Int) (source : String) (up down : Option MigrationFn) : Migration :=
  { Service := "default", Version := v, Next := -1, Previous := -1, Source := source,
    Registered := true, UpFn := up, DownFn := down }

/-- The statement a Go migration function of the examples carries out. -/
def renameRoot : MigrationFn := fun schema =>
  .ok (schema ++ ["UPDATE users SET username='admin' WHERE username='root';"])

/-- The catalog of the examples, in the order the directory was read:
version 2 is a script that runs without a transaction, version 1 a script that
runs in one, version 3 a Go migration. -/
def exampleCatalog : Migrations :=
  [scriptStep 2 "00002_b.sql", scriptStep 1 "00001_a.sql",
    goStep 3 "00003_c.go" (some renameRoot) none]

/-- An environment for the examples: a file holds its own name, every script
has one statement per direction, `00002_b.sql` asks for no transaction, and
the round trips listed in `failing` fail. -/
def exampleEnv (failing : List Nat) : Env :=
  { fault := fun n => if n ∈ failing then some "connection lost" else none
    Open := fun path => .ok path
    parseSQLMigration := fun f direction =>
      .ok ([(if direction then "-- +goose Up of " else "-- +goose Down of ") ++ f],
        f != "00002_b.sql")
    CollectMigrations := fun _ _ => .ok exampleCatalog }

/-- A world with an empty ledger table. -/
def emptyWorld : World :=
  { db := { schema := [], ledger := some [] }, tick := 0, log := [], trace := [] }

/-- A world whose ledger holds the given rows (newest first). -/
def worldWith (rows : List LedgerRow) : World :=
  { db := { schema := [], ledger := some rows }, tick := 0, log := [], trace := [] }

/-- The ledger after versions 1, 2 and 3 of service `default` were applied in
turn. -/
def allApplied : List LedgerRow :=
  [⟨3, "default", true⟩, ⟨2, "default", true⟩, ⟨1, "default", true⟩]

/-! ## Catalogs and reachable worlds -/

/-- The catalog of a service as the data model has it: distinct versions, all
positive (`NumericComponent` refuses the others), each with a `.sql` or `.go`
source, each of the service at hand. -/
structure ValidCatalog (service : String) (ms : Migrations) : Prop where
  distinct : (ms.map (fun m => m.Version)).Nodup
  positive : ∀ m ∈ ms, 0 < m.Version
  runnable : ∀ m ∈ ms, RunnableSource m.Source
  ofService : ∀ m ∈ ms, m.Service = service

/-- The worlds the engine reaches with a catalog: it starts without a ledger
table or with an empty one, and from then on runs steps of the catalog, up or
down, successfully or not, and reads the current version (which creates a
missing ledger table). -/
inductive Reachable (env : Env) (ms : Migrations) : World → Prop where
  | fresh (w : World) (h : w.db.ledger = none ∨ w.db.ledger = some []) : Reachable env ms w
  | up (w : World) (m : Migration) (hw : Reachable env ms w) (hm : m ∈ ms) :
      Reachable env ms (m.Up env w).2
  | down (w : World) (m : Migration) (hw : Reachable env ms w) (hm : m ∈ ms) :
      Reachable env ms (m.Down env w).2
  | version (w : World) (service : String) (hw : Reachable env ms w) :
      Reachable env ms (GetDBVersion env service w).2

/-- Every row of the ledger was written by a `.sql` or `.go` step of the
catalog. -/
def LedgerWithin (ms : Migrations) (d : Database) : Prop :=
  ∀ L, d.ledger = some L → ∀ r ∈ L,
    ∃ m ∈ ms, m.Version = r.version_id ∧ m.Service = r.service ∧ RunnableSource m.Source

/-- The number of applied versions of a service. -/
def appliedCount (service : String) (ledger : List LedgerRow) : Nat :=
  (appliedVersions (recordsOf service ledger)).toFinset.card

/-- The world after `Up` of versions 1, 2 and 3 of the example catalog, from
an empty ledger. -/
def appliedWorld : World :=
  ((goStep 3 "00003_c.go" (some renameRoot) none).Up (exampleEnv [])
    ((scriptStep 2 "00002_b.sql").Up (exampleEnv [])
      ((scriptStep 1 "00001_a.sql").Up (exampleEnv []) emptyWorld).2).2).2

/-- A world without a ledger table. -/
def noTableWorld : World :=
  { db := { schema := [], ledger := none }, tick := 0, log := [], trace := [] }

/-- The environment of the examples with scripts that have an Up section and
no Down section: the statement list of the Down direction is empty. -/
def noDownEnv (failing : List Nat) : Env :=
  { exampleEnv failing with
    parseSQLMigration := fun f direction =>
      .ok (if direction then ["-- +goose Up of " ++ f] else [], f != "00002_b.sql") }

/-! ## Theorems -/

theorem strings.indexFrom_of_not_mem (c : Char) (l : List Char) (i : Int) (h : c ∉ l) :
    strings.indexFrom c l i = -1 := by
  induction l generalizing i with
  | nil => rfl
  | cons x xs ih =>
    have hx : x ≠ c := fun e => h (by simp [e])
    have hxs : c ∉ xs := fun e => h (by simp [e])
    simp [strings.indexFrom, hx, ih _ hxs]

theorem strings.indexFrom_of_mem (c : Char) (l : List Char) (i : Int) (h : c ∈ l) :
    strings.indexFrom c l i = i + ((l.takeWhile (fun x => x ≠ c)).length : Int) := by
  induction l generalizing i with
  | nil => simp at h
  | cons x xs ih =>
    by_cases hx : x = c
    · simp [strings.indexFrom, hx, List.takeWhile]
    · have hxs : c ∈ xs := by
        rcases List.mem_cons.mp h with e | e
        · exact absurd e.symm hx
        · exact e
      simp [strings.indexFrom, hx, List.takeWhile, ih _ hxs]
      omega

theorem take_length_takeWhile {α : Type} (p : α → Bool) (l : List α) :
    l.take (l.takeWhile p).length = l.takeWhile p := by
  induction l with
  | nil => rfl
  | cons x xs ih =>
    by_cases hx : p x = true
    · simp [List.takeWhile, hx, ih]
    · simp [List.takeWhile, hx]

theorem sliceTo_Index (base : String) (h : '_' ∈ base.data) :
    0 ≤ strings.Index base '_' ∧
      sliceTo base (strings.Index base '_') = textBeforeSeparator base := by
  unfold strings.Index sliceTo textBeforeSeparator
  rw [strings.indexFrom_of_mem _ _ _ h]
  refine ⟨by omega, ?_⟩
  simp [take_length_takeWhile]

theorem NumericComponent_of_ext_of_sep (name : String)
    (hext : ¬ (filepath.Ext (filepath.Base name) ≠ ".go" ∧
        filepath.Ext (filepath.Base name) ≠ ".sql"))
    (hmem : '_' ∈ (filepath.Base name).data) :
    NumericComponent name =
      if (strconv.ParseInt (textBeforeSeparator (filepath.Base name))).2 = none ∧
          (strconv.ParseInt (textBeforeSeparator (filepath.Base name))).1 ≤ 0 then
        (0, some "migration IDs must be greater than zero")
      else ((strconv.ParseInt (textBeforeSeparator (filepath.Base name))).1,
        (strconv.ParseInt (textBeforeSeparator (filepath.Base name))).2.map
          (strconv.errText (textBeforeSeparator (filepath.Base name)))) := by
  have hs := sliceTo_Index _ hmem
  unfold NumericComponent
  simp only []
  rw [if_neg hext, if_neg (not_lt.mpr hs.1), hs.2]

theorem digit_le_nine (c : Char) (h : '0' ≤ c ∧ c ≤ '9') : c.toNat - '0'.toNat ≤ 9 := by
  obtain ⟨h1, h2⟩ := h
  have a1 : '0'.toNat ≤ c.toNat := h1
  have a2 : c.toNat ≤ '9'.toNat := h2
  have : '9'.toNat = 57 := rfl
  have : '0'.toNat = 48 := rfl
  omega

theorem le_digitsValue (cs : List Char) (n : Nat) : n ≤ digitsValue cs n := by
  induction cs generalizing n with
  | nil => exact le_refl _
  | cons c cs ih =>
    unfold digitsValue
    exact le_trans (by omega) (ih _)

theorem strconv.parseUintLoop_of_digits (cs : List Char) (n : Nat)
    (hd : ∀ c ∈ cs, '0' ≤ c ∧ c ≤ '9') (hv : digitsValue cs n < 2 ^ 64) :
    strconv.parseUintLoop cs n = (digitsValue cs n, none) := by
  induction cs generalizing n with
  | nil => rfl
  | cons c cs ih =>
    have hc := hd c (List.mem_cons_self _ _)
    have h9 := digit_le_nine c hc
    unfold digitsValue at hv ⊢
    have hle := le_digitsValue cs (n * 10 + (c.toNat - '0'.toNat))
    unfold strconv.parseUintLoop
    rw [if_pos hc]
    simp only [strconv.maxUint64]
    have h1 : ¬ n ≥ (2 ^ 64 - 1) / 10 + 1 := by omega
    rw [if_neg h1]
    have h2 : (n * 10) % 2 ^ 64 = n * 10 := Nat.mod_eq_of_lt (by omega)
    have h3 : (n * 10 + (c.toNat - '0'.toNat)) % 2 ^ 64 = n * 10 + (c.toNat - '0'.toNat) :=
      Nat.mod_eq_of_lt (by omega)
    rw [h2, h3]
    have h4 : ¬ (n * 10 + (c.toNat - '0'.toNat) < n * 10 ∨
        n * 10 + (c.toNat - '0'.toNat) > 2 ^ 64 - 1) := by omega
    rw [if_neg h4]
    exact ih _ (fun c1 h => hd c1 (List.mem_cons_of_mem _ h)) hv

theorem strconv.parseUintLoop_ok (cs : List Char) (n v : Nat)
    (h : strconv.parseUintLoop cs n = (v, none)) :
    (∀ c ∈ cs, '0' ≤ c ∧ c ≤ '9') ∧ v = digitsValue cs n := by
  induction cs generalizing n with
  | nil =>
    simp only [strconv.parseUintLoop, Prod.mk.injEq, and_true] at h
    simp [digitsValue, h]
  | cons c cs ih =>
    unfold strconv.parseUintLoop at h
    by_cases hc : '0' ≤ c ∧ c ≤ '9'
    · rw [if_pos hc] at h
      have h9 := digit_le_nine c hc
      simp only [strconv.maxUint64] at h
      by_cases h1 : n ≥ (2 ^ 64 - 1) / 10 + 1
      · rw [if_pos h1] at h
        simp at h
      · rw [if_neg h1] at h
        have h2 : (n * 10) % 2 ^ 64 = n * 10 := Nat.mod_eq_of_lt (by omega)
        rw [h2] at h
        by_cases h4 : (n * 10 + (c.toNat - '0'.toNat)) % 2 ^ 64 < n * 10 ∨
            (n * 10 + (c.toNat - '0'.toNat)) % 2 ^ 64 > 2 ^ 64 - 1
        · rw [if_pos h4] at h
          simp at h
        · rw [if_neg h4] at h
          have h3 : (n * 10 + (c.toNat - '0'.toNat)) % 2 ^ 64 = n * 10 + (c.toNat - '0'.toNat) := by
            omega
          rw [h3] at h
          obtain ⟨g1, g2⟩ := ih _ h
          refine ⟨?_, by unfold digitsValue; exact g2⟩
          intro c1 hc1
          rcases List.mem_cons.mp hc1 with e | e
          · rw [e]; exact hc
          · exact g1 c1 e
    · rw [if_neg hc] at h
      simp at h

theorem strconv.parseUintLoop_range (cs : List Char) (n v : Nat)
    (h : strconv.parseUintLoop cs n = (v, some .ErrRange)) : v = strconv.maxUint64 := by
  induction cs generalizing n with
  | nil => simp [strconv.parseUintLoop] at h
  | cons c cs ih =>
    unfold strconv.parseUintLoop at h
    by_cases hc : '0' ≤ c ∧ c ≤ '9'
    · rw [if_pos hc] at h
      by_cases h1 : n ≥ strconv.maxUint64 / 10 + 1
      · rw [if_pos h1] at h
        simp only [Prod.mk.injEq, and_true] at h
        exact h.symm
      · rw [if_neg h1] at h
        simp only [] at h
        split_ifs at h with h2
        · simp only [Prod.mk.injEq, and_true] at h
          exact h.symm
        · exact ih _ h
    · rw [if_neg hc] at h
      simp at h

theorem strconv.ParseUint_ok (ds : List Char) (v : Nat) (h : strconv.ParseUint ds = (v, none)) :
    ds ≠ [] ∧ (∀ c ∈ ds, '0' ≤ c ∧ c ≤ '9') ∧ v = digitsValue ds 0 := by
  unfold strconv.ParseUint at h
  split_ifs at h with h1
  · simp at h
  · exact ⟨h1, strconv.parseUintLoop_ok ds 0 v h⟩

theorem strconv.ParseUint_range (ds : List Char) (v : Nat)
    (h : strconv.ParseUint ds = (v, some .ErrRange)) : v = strconv.maxUint64 := by
  unfold strconv.ParseUint at h
  split_ifs at h with h1
  · simp at h
  · exact strconv.parseUintLoop_range ds 0 v h

theorem strconv.ParseUint_of_digits (ds : List Char) (h1 : ds ≠ [])
    (hd : ∀ c ∈ ds, '0' ≤ c ∧ c ≤ '9') (hv : digitsValue ds 0 < 2 ^ 64) :
    strconv.ParseUint ds = (digitsValue ds 0, none) := by
  unfold strconv.ParseUint
  rw [if_neg h1]
  exact strconv.parseUintLoop_of_digits ds 0 hd hv

/-- The last step of `strconv.ParseInt`: the range check and the sign. -/
theorem strconv.parseIntChars_of_ParseUint (c : Char) (cs : List Char) (un : Nat)
    (hp : strconv.ParseUint (if c = '+' ∨ c = '-' then cs else c :: cs) = (un, none)) :
    strconv.parseIntChars (c :: cs) =
      if c ≠ '-' ∧ un ≥ 2 ^ 63 then ((2 ^ 63 : Int) - 1, some .ErrRange)
      else if c = '-' ∧ un > 2 ^ 63 then (-(2 ^ 63 : Int), some .ErrRange)
      else (if c = '-' then -(un : Int) else (un : Int), none) := by
  simp only [strconv.parseIntChars, hp]
  by_cases hc : c = '-' <;> simp [hc]

/-- `strconv.ParseInt(s, 10, 64)` succeeds with `n` exactly when `s` is the
base-10 numeral of the 64-bit integer `n`. -/
theorem strconv.parseIntChars_iff (s : List Char) (n : Int) :
    strconv.parseIntChars s = (n, none) ↔ IsInt64Numeral s n := by
  constructor
  · intro h
    cases s with
    | nil => simp [strconv.parseIntChars] at h
    | cons c cs =>
      cases hp : strconv.ParseUint (if c = '+' ∨ c = '-' then cs else c :: cs) with
      | mk un e =>
        cases e with
        | some e =>
          simp only [strconv.parseIntChars, hp] at h
          cases e with
          | ErrSyntax => simp at h
          | ErrRange =>
            have hmax := strconv.ParseUint_range _ _ hp
            have hbig : un ≥ 2 ^ 63 ∧ un > 2 ^ 63 := by
              rw [hmax]
              unfold strconv.maxUint64
              omega
            exfalso
            by_cases hc : c = '-'
            · simp only [hc, decide_True, not_true_eq_false, false_and, if_false, true_and] at h
              rw [if_pos hbig.2] at h
              simp at h
            · simp only [hc, decide_False, not_false_eq_true, true_and, false_and, if_false,
                Bool.false_eq_true] at h
              rw [if_pos hbig.1] at h
              simp at h
        | none =>
          obtain ⟨g1, g2, g3⟩ := strconv.ParseUint_ok _ _ hp
          rw [strconv.parseIntChars_of_ParseUint c cs un hp] at h
          split_ifs at h with k1 k2 k3
          · simp at h
          · simp at h
          · simp only [Prod.mk.injEq, and_true] at h
            subst k3
            simp only [or_true, if_true] at g1 g2 g3
            refine ⟨cs, g1, g2, Or.inr ⟨rfl, ?_, ?_⟩⟩
            · rw [← h, g3]
            · have : ¬ (un > 2 ^ 63) := fun hc => k2 ⟨rfl, hc⟩
              rw [← h]
              omega
          · simp only [Prod.mk.injEq, and_true] at h
            have hlt : un < 2 ^ 63 := by
              by_contra hc
              exact k1 ⟨k3, by omega⟩
            by_cases hplus : c = '+'
            · subst hplus
              simp only [true_or, if_true] at g1 g2 g3
              refine ⟨cs, g1, g2, Or.inl ⟨Or.inr rfl, ?_, ?_⟩⟩
              · rw [← h, g3]
              · rw [← h]
                omega
            · have hno : ¬ (c = '+' ∨ c = '-') := fun hc => hc.elim hplus k3
              rw [if_neg hno] at g1 g2 g3
              refine ⟨c :: cs, g1, g2, Or.inl ⟨Or.inl rfl, ?_, ?_⟩⟩
              · rw [← h, g3]
              · rw [← h]
                omega
  · rintro ⟨ds, h1, hd, hcase⟩
    rcases hcase with ⟨hs, hn, hr⟩ | ⟨hs, hn, hr⟩
    · have hv : digitsValue ds 0 < 2 ^ 63 := by
        rw [hn] at hr
        exact_mod_cast hr
      have hp := strconv.ParseUint_of_digits ds h1 hd (by omega)
      rcases hs with hs | hs
      · rw [hs]
        cases ds with
        | nil => exact absurd rfl h1
        | cons c cs =>
          have hc := hd c (List.mem_cons_self _ _)
          have hplus : c ≠ '+' := by
            intro e; subst e; revert hc; decide
          have hneg : c ≠ '-' := by
            intro e; subst e; revert hc; decide
          have hno : ¬ (c = '+' ∨ c = '-') := fun h => h.elim hplus hneg
          rw [strconv.parseIntChars_of_ParseUint c cs _ (by rw [if_neg hno]; exact hp)]
          rw [if_neg (fun h => by omega), if_neg (fun h => hneg h.1), if_neg hneg, hn]
      · rw [hs]
        rw [strconv.parseIntChars_of_ParseUint '+' ds _ (by simpa using hp)]
        rw [if_neg (fun h => by omega), if_neg (fun h => by omega), if_neg (by decide), hn]
    · have hv : digitsValue ds 0 ≤ 2 ^ 63 := by
        rw [hn] at hr
        have : ((digitsValue ds 0 : Nat) : Int) ≤ 2 ^ 63 := by omega
        exact_mod_cast this
      have hp := strconv.ParseUint_of_digits ds h1 hd (by omega)
      rw [hs]
      rw [strconv.parseIntChars_of_ParseUint '-' ds _ (by simpa using hp)]
      rw [if_neg (fun h => h.1 rfl), if_neg (fun h => by omega), if_pos rfl, hn]

/-- What `NumericComponent` returns, in terms of `strconv.ParseInt` on the text
before the first `_`. -/
theorem NumericComponent_by_ParseInt (name : String) :
    ((filepath.Ext (filepath.Base name) ≠ ".go" ∧ filepath.Ext (filepath.Base name) ≠ ".sql")
        ∨ '_' ∉ (filepath.Base name).data
        ∨ (strconv.ParseInt (textBeforeSeparator (filepath.Base name))).2 ≠ none
        ∨ (strconv.ParseInt (textBeforeSeparator (filepath.Base name))).1 ≤ 0 →
      (NumericComponent name).2 ≠ none) ∧
    (¬ (filepath.Ext (filepath.Base name) ≠ ".go" ∧
          filepath.Ext (filepath.Base name) ≠ ".sql") →
      '_' ∈ (filepath.Base name).data →
      (strconv.ParseInt (textBeforeSeparator (filepath.Base name))).2 = none →
      0 < (strconv.ParseInt (textBeforeSeparator (filepath.Base name))).1 →
      NumericComponent name =
        ((strconv.ParseInt (textBeforeSeparator (filepath.Base name))).1, none)) := by
  refine ⟨?_, ?_⟩
  · intro h
    by_cases hext : (filepath.Ext (filepath.Base name) ≠ ".go" ∧
        filepath.Ext (filepath.Base name) ≠ ".sql")
    · unfold NumericComponent
      simp only []
      rw [if_pos hext]
      simp
    by_cases hmem : '_' ∈ (filepath.Base name).data
    · rw [NumericComponent_of_ext_of_sep name hext hmem]
      rcases h with h | h | h | h
      · exact absurd h hext
      · exact absurd hmem h
      · split_ifs with hc
        · simp
        · cases he : (strconv.ParseInt (textBeforeSeparator (filepath.Base name))).2 with
          | none => exact absurd he h
          | some e => simp
      · split_ifs with hc
        · simp
        · cases he : (strconv.ParseInt (textBeforeSeparator (filepath.Base name))).2 with
          | none => exact absurd ⟨he, h⟩ hc
          | some e => simp
    · unfold NumericComponent
      simp only []
      rw [if_neg hext]
      unfold strings.Index
      rw [strings.indexFrom_of_not_mem _ _ _ hmem]
      simp
  · intro hext h2 h3 h4
    rw [NumericComponent_of_ext_of_sep name hext h2,
      if_neg (fun hc => absurd hc.2 (not_le.mpr h4)), h3]
    rfl

/-- C1. `NumericComponent` returns an error when the base name's extension is
neither `.go` nor `.sql`, when the base name has no `_`, when the text before the
first `_` is not the base-10 numeral of a 64-bit integer, or when that integer
is not positive; in every other case it returns exactly that integer, which is
positive, with no error.  `00002_rename_root.go` gives 2. -/
theorem NumericComponent_contract (name : String) :
    (Refused name → (NumericComponent name).2 ≠ none) ∧
    (¬ Refused name →
      ∃ n, IsInt64Numeral (textBeforeSeparator (filepath.Base name)).data n ∧ 0 < n ∧
        NumericComponent name = (n, none)) ∧
    NumericComponent "00002_rename_root.go" = (2, none) := by
  obtain ⟨hA, hB⟩ := NumericComponent_by_ParseInt name
  have hiff := strconv.parseIntChars_iff (textBeforeSeparator (filepath.Base name)).data
  refine ⟨?_, ?_, by decide⟩
  · rintro (h | h | h | h)
    · exact hA (Or.inl h)
    · exact hA (Or.inr (Or.inl h))
    · refine hA (Or.inr (Or.inr (Or.inl ?_)))
      intro hnone
      exact h ⟨_, (hiff _).mp (Prod.ext rfl hnone)⟩
    · obtain ⟨n, hn, hle⟩ := h
      have hp := (hiff n).mpr hn
      refine hA (Or.inr (Or.inr (Or.inr ?_)))
      unfold strconv.ParseInt
      rw [hp]
      exact hle
  · intro h
    unfold Refused at h
    push_neg at h
    obtain ⟨h1, h2, ⟨n, hn⟩, h4⟩ := h
    have hp := (hiff n).mpr hn
    have hpos : 0 < n := h4 n hn
    refine ⟨n, hn, hpos, ?_⟩
    have hext : ¬ (filepath.Ext (filepath.Base name) ≠ ".go" ∧
        filepath.Ext (filepath.Base name) ≠ ".sql") := by
      intro hc; exact hc.2 (h1 hc.1)
    have := hB hext h2 (by unfold strconv.ParseInt; rw [hp]) (by unfold strconv.ParseInt; rw [hp]; exact hpos)
    rw [this]
    unfold strconv.ParseInt
    rw [hp]

/-! ### One round trip -/

theorem Exec_world (env : Env) (q : Statement) (d : Database) (w : World) :
    (Exec env q d w).2.2 = { w with tick := w.tick + 1 } := by
  unfold Exec
  split
  · rfl
  · split <;> rfl

theorem Exec_err (env : Env) (q : Statement) (d : Database) (w : World) (e : Err)
    (h : (Exec env q d w).1 = some e) : (Exec env q d w).2.1 = d := by
  unfold Exec at h ⊢
  split
  · rfl
  · split
    · rfl
    · rename_i h1 _ _ h2
      simp [h1, h2] at h

theorem Exec_ok (env : Env) (q : Statement) (d : Database) (w : World)
    (h : (Exec env q d w).1 = none) : q.apply d = .ok (Exec env q d w).2.1 := by
  unfold Exec at h ⊢
  split
  · rename_i h1
    simp [h1] at h
  · split
    · rename_i h1 _ _ h2
      simp [h1, h2] at h
    · rename_i h2
      simp [h2]

theorem execStatements_world (env : Env) (qs : List String) (d : Database) (w : World) :
    (execStatements env qs d w).2.2.db = w.db ∧
      (execStatements env qs d w).2.2.log = w.log ∧
      (execStatements env qs d w).2.2.trace = w.trace := by
  induction qs generalizing d w with
  | nil => simp [execStatements]
  | cons q rest ih =>
    unfold execStatements
    have hw := Exec_world env (.script q) d w
    split
    · rename_i e d1 w1 heq
      rw [heq] at hw
      simp only [] at hw
      subst hw
      simp
    · rename_i d1 w1 heq
      rw [heq] at hw
      simp only [] at hw
      subst hw
      have := ih d1 { w with tick := w.tick + 1 }
      simpa using this

theorem execStatements_ledger (env : Env) (qs : List String) (d : Database) (w : World) :
    (execStatements env qs d w).2.1.ledger = d.ledger := by
  induction qs generalizing d w with
  | nil => simp [execStatements]
  | cons q rest ih =>
    unfold execStatements
    split
    · rename_i e d1 w1 heq
      have := Exec_err env (.script q) d w e (by rw [heq])
      rw [heq] at this
      simp only [] at this
      simp [this]
    · rename_i d1 w1 heq
      have := Exec_ok env (.script q) d w (by rw [heq])
      rw [heq] at this
      simp only [Statement.apply] at this
      rw [ih]
      cases this
      rfl

theorem Begin_spec (env : Env) (w : World) :
    (Begin env w).2 = { w with tick := w.tick + 1 } ∧
      ∀ tx, (Begin env w).1 = .ok tx → tx = w.db := by
  unfold Begin
  split <;> simp

theorem Commit_spec (env : Env) (tx : Database) (w : World) :
    (∀ e, (Commit env tx w).1 = some e → (Commit env tx w).2 = { w with tick := w.tick + 1 }) ∧
      ((Commit env tx w).1 = none →
        (Commit env tx w).2 = { w with db := tx, tick := w.tick + 1 }) := by
  unfold Commit
  split <;> simp

theorem apply_insertVersion_ok (service : String) (v : Int) (b : Bool) (d d1 : Database)
    (h : (Statement.insertVersion service v b).apply d = .ok d1) :
    ∃ L, d.ledger = some L ∧ d1 = { d with ledger := some (⟨v, service, b⟩ :: L) } := by
  simp only [Statement.apply] at h
  split at h
  · simp at h
  · rename_i rows hrows
    refine ⟨rows, hrows, ?_⟩
    cases h
    rfl

theorem apply_deleteVersion_ok (service : String) (v : Int) (d d1 : Database)
    (h : (Statement.deleteVersion service v).apply d = .ok d1) :
    ∃ L, d.ledger = some L ∧ d1 = { d with
      ledger := some (L.filter (fun r => ¬ (r.version_id = v ∧ r.service = service))) } := by
  simp only [Statement.apply] at h
  split at h
  · simp at h
  · rename_i rows hrows
    refine ⟨rows, hrows, ?_⟩
    cases h
    rfl

/-- What `runSQLMigration` does to the world: the log and the history of calls
stay; a failure leaves the committed ledger as it was (and, in a transaction,
the whole database); a success performs exactly the bookkeeping write. -/
theorem runSQLMigration_effect (env : Env) (statements : List String) (useTx : Bool)
    (service : String) (v : Int) (direction : Bool) (w : World) :
    (runSQLMigration env statements useTx service v direction w).2.log = w.log ∧
    (runSQLMigration env statements useTx service v direction w).2.trace = w.trace ∧
    (∀ e, (runSQLMigration env statements useTx service v direction w).1 = some e →
      (runSQLMigration env statements useTx service v direction w).2.db.ledger = w.db.ledger ∧
      (useTx = true →
        (runSQLMigration env statements useTx service v direction w).2.db = w.db)) ∧
    ((runSQLMigration env statements useTx service v direction w).1 = none →
      ∃ L, w.db.ledger = some L ∧
        (runSQLMigration env statements useTx service v direction w).2.db.ledger =
          some (ledgerWrite useTx service v direction L)) := by
  unfold runSQLMigration
  split
  · -- transaction
    rename_i hTx
    have hB := Begin_spec env w
    split
    · rename_i e w1 hb
      rw [hb] at hB
      simp only [] at hB
      simp [hB.1]
    · rename_i tx w1 hb
      rw [hb] at hB
      simp only [] at hB
      obtain ⟨hw1, htx⟩ := hB
      have htx := htx tx rfl
      subst htx hw1
      have hS := execStatements_world env statements w.db { w with tick := w.tick + 1 }
      have hSl := execStatements_ledger env statements w.db { w with tick := w.tick + 1 }
      split
      · rename_i e query tx2 w2 hs
        rw [hs] at hS
        simp only [] at hS
        simp [Rollback, hS]
      · rename_i tx2 w2 hs
        rw [hs] at hS hSl
        simp only [] at hS hSl
        split
        · -- up
          rename_i hdir
          have hE := Exec_world env (.insertVersion service v direction) tx2 w2
          split
          · rename_i e tx3 w3 hx
            rw [hx] at hE
            simp only [] at hE
            subst hE
            simp [Rollback, hS]
          · rename_i tx3 w3 hx
            rw [hx] at hE
            simp only [] at hE
            subst hE
            have hok := Exec_ok env (.insertVersion service v direction) tx2 w2 (by rw [hx])
            rw [hx] at hok
            simp only [] at hok
            obtain ⟨L, hL, h3⟩ := apply_insertVersion_ok _ _ _ _ _ hok
            have hC := Commit_spec env tx3 { w2 with tick := w2.tick + 1 }
            split
            · rename_i e w4 hc
              have := hC.1 e (by rw [hc])
              rw [hc] at this
              simp only [] at this
              subst this
              simp [hS]
            · rename_i w4 hc
              have := hC.2 (by rw [hc])
              rw [hc] at this
              simp only [] at this
              subst this
              simp [hS]
              refine ⟨L, ?_, ?_⟩
              · rw [← hSl, hL]
              · rw [h3]
                simp [ledgerWrite, hdir]
        · -- down
          rename_i hdir
          have hE := Exec_world env (.deleteVersion service v) tx2 w2
          split
          · rename_i e tx3 w3 hx
            rw [hx] at hE
            simp only [] at hE
            subst hE
            simp [Rollback, hS]
          · rename_i tx3 w3 hx
            rw [hx] at hE
            simp only [] at hE
            subst hE
            have hok := Exec_ok env (.deleteVersion service v) tx2 w2 (by rw [hx])
            rw [hx] at hok
            simp only [] at hok
            obtain ⟨L, hL, h3⟩ := apply_deleteVersion_ok _ _ _ _ hok
            have hC := Commit_spec env tx3 { w2 with tick := w2.tick + 1 }
            split
            · rename_i e w4 hc
              have := hC.1 e (by rw [hc])
              rw [hc] at this
              simp only [] at this
              subst this
              simp [hS]
            · rename_i w4 hc
              have := hC.2 (by rw [hc])
              rw [hc] at this
              simp only [] at this
              subst this
              simp [hS]
              refine ⟨L, ?_, ?_⟩
              · rw [← hSl, hL]
              · rw [h3]
                simp [ledgerWrite, hdir, hTx]
  · -- no transaction
    rename_i hTx
    have hS := execStatements_world env statements w.db w
    have hSl := execStatements_ledger env statements w.db w
    split
    · rename_i e query d1 w1 hs
      rw [hs] at hS hSl
      simp only [] at hS hSl
      simp [hS, hSl, hTx]
    · rename_i d1 w1 hs
      rw [hs] at hS hSl
      simp only [] at hS hSl
      have hE := Exec_world env (.insertVersion service v direction) d1 w1
      split
      · rename_i e d2 w2 hx
        rw [hx] at hE
        simp only [] at hE
        subst hE
        have herr := Exec_err env (.insertVersion service v direction) d1 w1 e (by rw [hx])
        rw [hx] at herr
        simp only [] at herr
        subst herr
        simp [hS, hSl, hTx]
      · rename_i d2 w2 hx
        rw [hx] at hE
        simp only [] at hE
        subst hE
        have hok := Exec_ok env (.insertVersion service v direction) d1 w1 (by rw [hx])
        rw [hx] at hok
        simp only [] at hok
        obtain ⟨L, hL, h3⟩ := apply_insertVersion_ok _ _ _ _ _ hok
        simp [hS]
        refine ⟨L, ?_, ?_⟩
        · rw [← hSl, hL]
        · rw [h3]
          cases direction <;> simp [ledgerWrite, hTx]

/-- What the `.go` case of `Migration.run` does to the world: a failure leaves
the committed database as it was; a success performs the bookkeeping write of
a transaction. -/
theorem runGo_effect (m : Migration) (env : Env) (direction : Bool) (w : World) :
    (m.runGo env direction w).2.trace = w.trace ∧
    (∀ e, (m.runGo env direction w).1 = some e → (m.runGo env direction w).2.db = w.db) ∧
    ((m.runGo env direction w).1 = none →
      ∃ L, w.db.ledger = some L ∧
        (m.runGo env direction w).2.db.ledger =
          some (ledgerWrite true m.Service m.Version direction L)) := by
  unfold Migration.runGo
  split
  · simp
  · have hB := Begin_spec env w
    split
    · rename_i e w1 hb
      rw [hb] at hB
      simp only [] at hB
      simp [hB.1]
    · rename_i tx w1 hb
      rw [hb] at hB
      simp only [] at hB
      obtain ⟨hw1, htx⟩ := hB
      have htx := htx tx rfl
      subst htx hw1
      simp only []
      split
      · simp [Rollback]
      · rename_i schema1 hfn
        split
        · rename_i e tx2 w2 hx
          have hE : w2 = { w with tick := w.tick + 1 + 1 } := by
            have h1 := Exec_world env (.insertVersion m.Service m.Version direction)
              { w.db with schema := schema1 } { w with tick := w.tick + 1 }
            have h2 := Exec_world env (.deleteVersion m.Service m.Version)
              { w.db with schema := schema1 } { w with tick := w.tick + 1 }
            split at hx
            · rw [hx] at h1; exact h1
            · rw [hx] at h2; exact h2
          subst hE
          simp [Rollback]
        · rename_i tx2 w2 hx
          have hE : w2 = { w with tick := w.tick + 1 + 1 } ∧ ∃ L, w.db.ledger = some L ∧
              tx2.ledger = some (ledgerWrite true m.Service m.Version direction L) := by
            have h1 := Exec_world env (.insertVersion m.Service m.Version direction)
              { w.db with schema := schema1 } { w with tick := w.tick + 1 }
            have h2 := Exec_world env (.deleteVersion m.Service m.Version)
              { w.db with schema := schema1 } { w with tick := w.tick + 1 }
            split at hx
            · rename_i hdir
              have hok := Exec_ok env (.insertVersion m.Service m.Version direction)
                { w.db with schema := schema1 } { w with tick := w.tick + 1 } (by rw [hx])
              rw [hx] at h1 hok
              obtain ⟨L, hL, h3⟩ := apply_insertVersion_ok _ _ _ _ _ hok
              refine ⟨h1, L, hL, ?_⟩
              simp only [] at h3
              rw [h3]
              simp [ledgerWrite, hdir]
            · rename_i hdir
              have hok := Exec_ok env (.deleteVersion m.Service m.Version)
                { w.db with schema := schema1 } { w with tick := w.tick + 1 } (by rw [hx])
              rw [hx] at h2 hok
              obtain ⟨L, hL, h3⟩ := apply_deleteVersion_ok _ _ _ _ hok
              refine ⟨h2, L, hL, ?_⟩
              simp only [] at h3
              rw [h3]
              simp [ledgerWrite, hdir]
          obtain ⟨hw2, L, hL, hl2⟩ := hE
          subst hw2
          have hC := Commit_spec env tx2 { w with tick := w.tick + 1 + 1 }
          split
          · rename_i e w3 hc
            have := hC.1 e (by rw [hc])
            rw [hc] at this
            simp only [] at this
            subst this
            simp
          · rename_i w3 hc
            have := hC.2 (by rw [hc])
            rw [hc] at this
            simp only [] at this
            subst this
            split_ifs <;> simp [World.println] <;> exact ⟨L, hL, hl2⟩

/-- What the `.sql` case of `Migration.run` does to the world. -/
theorem runSQL_effect (m : Migration) (env : Env) (direction : Bool) (w : World) :
    (m.runSQL env direction w).2.trace = w.trace ∧
    (∀ e, (m.runSQL env direction w).1 = some e →
      (m.runSQL env direction w).2.db.ledger = w.db.ledger) ∧
    ((m.runSQL env direction w).1 = none →
      ∃ inTx L, w.db.ledger = some L ∧
        (m.runSQL env direction w).2.db.ledger =
          some (ledgerWrite inTx m.Service m.Version direction L)) := by
  unfold Migration.runSQL
  split
  · simp
  · split
    · simp
    · rename_i statements useTx hparse
      have hR := runSQLMigration_effect env statements useTx m.Service m.Version direction w
      split
      · rename_i e w1 hr
        rw [hr] at hR
        simp only [] at hR
        obtain ⟨-, ht, he, -⟩ := hR
        simp [ht, (he e rfl).1]
      · rename_i w1 hr
        rw [hr] at hR
        simp only [] at hR
        obtain ⟨-, ht, -, hok⟩ := hR
        obtain ⟨L, hL, hl⟩ := hok trivial
        split_ifs <;>
          exact ⟨by simp [World.println, ht], by simp,
            fun _ => ⟨useTx, L, hL, by simpa [World.println] using hl⟩⟩

/-- What `Migration.run` does to the ledger: a failure leaves the committed
ledger as it was; a success on a `.sql` or `.go` source performs the
bookkeeping write; any other source is left alone. -/
theorem run_effect (m : Migration) (env : Env) (direction : Bool) (w : World) :
    (m.run env direction w).2.trace = w.trace ∧
    (∀ e, (m.run env direction w).1 = some e →
      (m.run env direction w).2.db.ledger = w.db.ledger) ∧
    ((m.run env direction w).1 = none → RunnableSource m.Source →
      ∃ inTx L, w.db.ledger = some L ∧
        (m.run env direction w).2.db.ledger =
          some (ledgerWrite inTx m.Service m.Version direction L)) ∧
    (¬ RunnableSource m.Source → m.run env direction w = (none, w)) := by
  unfold Migration.run RunnableSource
  split_ifs with h1 h2
  · have := runSQL_effect m env direction w
    refine ⟨this.1, this.2.1, fun h _ => this.2.2 h, fun h => absurd (Or.inl h1) h⟩
  · have := runGo_effect m env direction w
    refine ⟨this.1, fun e he => by rw [(this.2.1 e he)], fun h _ => ?_,
      fun h => absurd (Or.inr h2) h⟩
    obtain ⟨L, hL, hl⟩ := this.2.2 h
    exact ⟨true, L, hL, hl⟩
  · refine ⟨rfl, by simp, fun _ h => ?_, fun _ => rfl⟩
    rcases h with h | h
    · exact absurd h h1
    · exact absurd h h2

/-- The ledger and the history of calls after `Migration.Down`. -/
theorem Down_effect (m : Migration) (env : Env) (w : World) :
    (m.Down env w).1 = (m.run env false w).1 ∧
    (m.Down env w).2.db = (m.run env false w).2.db ∧
    (m.Down env w).2.trace = w.trace ++ [⟨m.Version, false, (m.run env false w).1.isNone⟩] := by
  have ht := (run_effect m env false w).1
  unfold Migration.Down
  split
  · rename_i e w1 hr
    rw [hr] at ht
    simp only [] at ht
    simp [World.record, ht, hr]
  · rename_i w1 hr
    rw [hr] at ht
    simp only [] at ht
    simp [World.record, ht, hr]

/-- The ledger and the history of calls after `Migration.Up`. -/
theorem Up_effect (m : Migration) (env : Env) (w : World) :
    (m.Up env w).1 = (m.run env true w).1 ∧
    (m.Up env w).2.db = (m.run env true w).2.db ∧
    (m.Up env w).2.trace = w.trace ++ [⟨m.Version, true, (m.run env true w).1.isNone⟩] := by
  have ht := (run_effect m env true w).1
  unfold Migration.Up
  split
  · rename_i e w1 hr
    rw [hr] at ht
    simp only [] at ht
    simp [World.record, ht, hr]
  · rename_i w1 hr
    rw [hr] at ht
    simp only [] at ht
    simp [World.record, ht, hr]

/-! ### The status of a version in the ledger -/

theorem recordsOf_cons (service : String) (r : LedgerRow) (L : List LedgerRow) :
    recordsOf service (r :: L) =
      if r.service = service then ⟨r.version_id, r.is_applied⟩ :: recordsOf service L
      else recordsOf service L := by
  unfold recordsOf
  by_cases h : r.service = service <;> simp [List.filter_cons, h]

theorem latestFlag_cons (service : String) (r : LedgerRow) (L : List LedgerRow) (u : Int) :
    latestFlag service (r :: L) u =
      if r.service = service ∧ r.version_id = u then some r.is_applied
      else latestFlag service L u := by
  unfold latestFlag
  rw [recordsOf_cons]
  by_cases h : r.service = service
  · by_cases h2 : r.version_id = u
    · simp [h, h2, List.find?_cons]
    · simp [h, h2, List.find?_cons]
  · simp [h]

theorem latestFlag_filter (service s : String) (v u : Int) (L : List LedgerRow) :
    latestFlag service (L.filter (fun r => ¬ (r.version_id = v ∧ r.service = s))) u =
      if s = service ∧ v = u then none else latestFlag service L u := by
  induction L with
  | nil => simp [latestFlag, recordsOf]
  | cons r rest ih =>
    by_cases hr : r.version_id = v ∧ r.service = s
    · have : (r :: rest).filter (fun r => ¬ (r.version_id = v ∧ r.service = s)) =
          rest.filter (fun r => ¬ (r.version_id = v ∧ r.service = s)) := by
        simp [List.filter_cons, hr]
      rw [this, ih, latestFlag_cons]
      by_cases hc : s = service ∧ v = u
      · simp [hc]
      · have hn : ¬ (r.service = service ∧ r.version_id = u) := by
          rintro ⟨h1, h2⟩
          exact hc ⟨hr.2 ▸ h1, hr.1 ▸ h2⟩
        simp [hc, hn]
    · have : (r :: rest).filter (fun r => ¬ (r.version_id = v ∧ r.service = s)) =
          r :: rest.filter (fun r => ¬ (r.version_id = v ∧ r.service = s)) := by
        simp [List.filter_cons, hr]
      rw [this, latestFlag_cons, ih, latestFlag_cons]
      by_cases hc : s = service ∧ v = u
      · have hn : ¬ (r.service = service ∧ r.version_id = u) := by
          rintro ⟨h1, h2⟩
          exact hr ⟨h2.trans hc.2.symm, h1.trans hc.1.symm⟩
        simp [hc, hn]
      · simp [hc]

/-- The status of every version after the bookkeeping write of a run. -/
theorem latestFlag_ledgerWrite (inTx : Bool) (service s : String) (v u : Int) (direction : Bool)
    (L : List LedgerRow) :
    latestFlag service (ledgerWrite inTx s v direction L) u =
      if s = service ∧ v = u then
        (if direction then some true else if inTx then none else some false)
      else latestFlag service L u := by
  unfold ledgerWrite
  split_ifs <;>
    first
    | (rw [latestFlag_cons]; simp_all)
    | (rw [latestFlag_filter]; simp_all)

/-- After the bookkeeping write of a run of `(s, v)`, version `v` of service `s`
is applied exactly for an up migration, and every other version is as before. -/
theorem Applied_ledgerWrite (inTx : Bool) (service s : String) (v u : Int) (direction : Bool)
    (L : List LedgerRow) :
    Applied service (ledgerWrite inTx s v direction L) u ↔
      if s = service ∧ v = u then direction = true else Applied service L u := by
  unfold Applied
  rw [latestFlag_ledgerWrite]
  split_ifs <;> simp_all

theorem mem_retained (rows : List MigrationRecord) (x : MigrationRecord) :
    x ∈ retained rows ↔ rows.find? (fun r => r.VersionID = x.VersionID) = some x := by
  induction rows with
  | nil => simp [retained]
  | cons r rest ih =>
    simp only [retained, List.mem_cons, List.mem_filter, List.find?_cons]
    by_cases h : r.VersionID = x.VersionID
    · simp only [h, decide_True]
      constructor
      · rintro (h1 | ⟨_, h2⟩)
        · simp [h1]
        · simp at h2
      · intro h1
        left
        simpa using h1.symm
    · have hx : x ≠ r := fun e => h (by rw [e])
      simp only [h, decide_False, hx, false_or, ih]
      constructor
      · exact fun h1 => h1.1
      · intro h1
        refine ⟨h1, ?_⟩
        simpa using fun e => h e.symm

/-- A version is among the applied versions of a list of records exactly when
the first record of the version is applied. -/
theorem mem_appliedVersions (rows : List MigrationRecord) (v : Int) :
    v ∈ appliedVersions rows ↔
      (rows.find? (fun r => r.VersionID = v)).map (fun r => r.IsApplied) = some true := by
  unfold appliedVersions
  simp only [List.mem_map, List.mem_filter, mem_retained]
  constructor
  · rintro ⟨x, ⟨hx, ha⟩, rfl⟩
    simp [hx, ha]
  · intro h
    cases hf : rows.find? (fun r => r.VersionID = v) with
    | none => simp [hf] at h
    | some x =>
      have hv : x.VersionID = v := by simpa using List.find?_some hf
      rw [hf] at h
      refine ⟨x, ⟨?_, by simpa using h⟩, hv⟩
      rw [hv]
      exact hf

theorem mem_appliedVersions_recordsOf (service : String) (L : List LedgerRow) (v : Int) :
    v ∈ appliedVersions (recordsOf service L) ↔ Applied service L v :=
  mem_appliedVersions _ _

theorem foldl_max_spec (xs : List Int) (x : Int) :
    xs.foldl max x ∈ x :: xs ∧ ∀ y ∈ x :: xs, y ≤ xs.foldl max x := by
  induction xs generalizing x with
  | nil => simp
  | cons a rest ih =>
    simp only [List.foldl_cons]
    obtain ⟨h1, h2⟩ := ih (max x a)
    constructor
    · rcases List.mem_cons.mp h1 with h | h
      · rcases max_choice x a with hm | hm
        · rw [h, hm]; simp
        · rw [h, hm]; simp
      · simp [h]
    · intro y hy
      rcases List.mem_cons.mp hy with h | h
      · subst h
        exact le_trans (le_max_left y a) (h2 (max y a) (List.mem_cons_self _ _))
      · rcases List.mem_cons.mp h with h | h
        · subst h
          exact le_trans (le_max_right x y) (h2 (max x y) (List.mem_cons_self _ _))
        · exact h2 _ (List.mem_cons_of_mem _ h)

theorem maxOrZero_spec (l : List Int) (h : l ≠ []) :
    maxOrZero l ∈ l ∧ ∀ y ∈ l, y ≤ maxOrZero l := by
  cases l with
  | nil => exact absurd rfl h
  | cons x xs => exact foldl_max_spec xs x

/-- The current version is applied and is the largest applied version; it is 0
when no version is applied. -/
theorem currentVersion_spec (service : String) (d : Database) (L : List LedgerRow)
    (h : d.ledger = some L) :
    (∀ u, Applied service L u → u ≤ currentVersion service d) ∧
    ((∃ u, Applied service L u) → Applied service L (currentVersion service d)) ∧
    ((∀ u, ¬ Applied service L u) → currentVersion service d = 0) := by
  unfold currentVersion
  rw [h]
  simp only []
  by_cases hne : appliedVersions (recordsOf service L) = []
  · have hnone : ∀ u, ¬ Applied service L u := by
      intro u hu
      have := (mem_appliedVersions_recordsOf service L u).mpr hu
      rw [hne] at this
      simp at this
    refine ⟨fun u hu => absurd hu (hnone u), fun ⟨u, hu⟩ => absurd hu (hnone u), fun _ => ?_⟩
    rw [hne]
    rfl
  · obtain ⟨h1, h2⟩ := maxOrZero_spec _ hne
    refine ⟨fun u hu => h2 u ((mem_appliedVersions_recordsOf service L u).mpr hu),
      fun _ => (mem_appliedVersions_recordsOf service L _).mp h1, fun hall => ?_⟩
    exact absurd ((mem_appliedVersions_recordsOf service L _).mp h1) (hall _)

/-- The current version is the one applied version that no applied version
exceeds. -/
theorem currentVersion_eq (service : String) (d : Database) (L : List LedgerRow)
    (h : d.ledger = some L) (c : Int) (hc : Applied service L c)
    (hmax : ∀ u, Applied service L u → u ≤ c) : currentVersion service d = c := by
  obtain ⟨h1, h2, -⟩ := currentVersion_spec service d L h
  exact le_antisymm (hmax _ (h2 ⟨c, hc⟩)) (h1 c hc)

/-! ### `dbMigrationsStatus` -/

theorem statusLoop_ok (recs : List MigrationRecord) (init : StatusMap) :
    statusLoop (recs.map .ok) init =
      .ok (fun v => match init v with
        | some b => some b
        | none => (recs.find? (fun r => r.VersionID = v)).map (fun r => r.IsApplied)) := by
  induction recs generalizing init with
  | nil =>
    simp only [List.map_nil, statusLoop, List.find?_nil, Option.map_none']
    congr 1
    funext v
    cases init v <;> rfl
  | cons r rest ih =>
    simp only [List.map_cons, statusLoop]
    split_ifs with hseen
    · rw [ih]
      congr 1
      funext v
      cases hv : init v with
      | some b => rfl
      | none =>
        have : r.VersionID ≠ v := by
          intro e
          rw [e, hv] at hseen
          simp at hseen
        simp [List.find?_cons, this]
    · rw [ih]
      congr 1
      funext v
      by_cases e : r.VersionID = v
      · subst e
        have : init r.VersionID = none := by
          cases hi : init r.VersionID with
          | none => rfl
          | some b => simp [hi] at hseen
        simp [this, List.find?_cons]
      · have e2 : v ≠ r.VersionID := fun h => e h.symm
        simp [Function.update_noteq e2, List.find?_cons, e]

theorem dbVersionQuery_world (env : Env) (service : String) (w : World) :
    (dbVersionQuery env service w).2 = { w with tick := w.tick + 1 } := by
  unfold dbVersionQuery
  split
  · rfl
  · split <;> rfl

/-- A cursor none of whose steps fails gives every row. -/
theorem cursor_ok (env : Env) (recs : List MigrationRecord) (n : Nat)
    (h : ∀ k, k < 2 * recs.length → env.fault (n + k) = none) :
    cursor env recs n = recs.map .ok := by
  induction recs generalizing n with
  | nil => rfl
  | cons r rest ih =>
    have h0 : env.fault n = none := by
      simpa using h 0 (by simp)
    have h1 : env.fault (n + 1) = none := h 1 (by simp; omega)
    have hrest : ∀ k, k < 2 * rest.length → env.fault (n + 2 + k) = none := by
      intro k hk
      have := h (k + 2) (by simp only [List.length_cons]; omega)
      rw [show n + 2 + k = n + (k + 2) by omega]
      exact this
    simp [cursor, h0, h1, ih (n + 2) hrest]

/-- With the default dialect, a ledger table and no failing step, the
full-ledger query gives the events of the service, newest first. -/
theorem dbVersionQuery_default (env : Env) (service : String) (w : World) (L : List LedgerRow)
    (hd : GetDialect env.cfg = .PostgresDialect) (hL : w.db.ledger = some L)
    (hf : ∀ k, k ≤ 2 * (recordsOf service L).length → env.fault (w.tick + k) = none) :
    (dbVersionQuery env service w).1 = .ok ((recordsOf service L).map .ok) := by
  unfold dbVersionQuery
  have h0 : env.fault w.tick = none := by simpa using hf 0 (Nat.zero_le _)
  rw [h0, hL, hd]
  simp only [SQLDialect.dbVersionRows]
  rw [cursor_ok]
  intro k hk
  have := hf (k + 1) (by omega)
  rw [show w.tick + 1 + k = w.tick + (k + 1) by omega]
  exact this

/-- What `dbMigrationsStatus` returns when the rows of the query all scan: the
flag of the first row of each version. -/
theorem dbMigrationsStatus_of_rows (env : Env) (service : String) (w : World)
    (recs : List MigrationRecord)
    (h : (dbVersionQuery env service w).1 = .ok (recs.map .ok)) :
    (dbMigrationsStatus env service w).1 =
      .ok (fun v => (recs.find? (fun r => r.VersionID = v)).map (fun r => r.IsApplied)) ∧
    (dbMigrationsStatus env service w).2.db = w.db ∧
    (dbMigrationsStatus env service w).2.log = w.log ∧
    (dbMigrationsStatus env service w).2.trace = w.trace := by
  have hw := dbVersionQuery_world env service w
  unfold dbMigrationsStatus
  cases hq : dbVersionQuery env service w with
  | mk r w1 =>
    rw [hq] at h hw
    simp only [] at h hw
    subst hw
    subst h
    exact ⟨statusLoop_ok recs (fun _ => none), rfl, rfl, rfl⟩

/-- C4. For every sequence of ledger rows of the full-ledger query (newest
first), `dbMigrationsStatus` returns a map whose keys are exactly the versions
that occur in the sequence and whose value for each version is the `is_applied`
flag of the first row of that version; rows that follow never change a value. -/
theorem dbMigrationsStatus_first_row_per_version (recs : List MigrationRecord) :
    ∃ statuses : StatusMap,
      statusLoop (recs.map .ok) (fun _ => none) = .ok statuses ∧
      (∀ env service w, (dbVersionQuery env service w).1 = .ok (recs.map .ok) →
        (dbMigrationsStatus env service w).1 = .ok statuses) ∧
      (∀ env service w L, GetDialect env.cfg = .PostgresDialect → w.db.ledger = some L →
        (∀ k, k ≤ 2 * (recordsOf service L).length → env.fault (w.tick + k) = none) →
        recordsOf service L = recs →
        (dbMigrationsStatus env service w).1 = .ok statuses) ∧
      (∀ v, statuses v ≠ none ↔ v ∈ recs.map (fun r => r.VersionID)) ∧
      (∀ v, statuses v =
        (recs.find? (fun r => r.VersionID = v)).map (fun r => r.IsApplied)) ∧
      (∀ more : List MigrationRecord, ∀ later : StatusMap,
        statusLoop ((recs ++ more).map .ok) (fun _ => none) = .ok later →
        ∀ v, v ∈ recs.map (fun r => r.VersionID) → later v = statuses v) := by
  refine ⟨_, statusLoop_ok recs (fun _ => none), ?_, ?_, ?_, ?_, ?_⟩
  · intro env service w hq
    exact (dbMigrationsStatus_of_rows env service w recs hq).1
  · intro env service w L hd hL hf hrecs
    have hq := dbVersionQuery_default env service w L hd hL hf
    rw [hrecs] at hq
    exact (dbMigrationsStatus_of_rows env service w recs hq).1
  · intro v
    simp only [ne_eq, Option.map_eq_none', List.mem_map]
    rw [List.find?_eq_none]
    constructor
    · intro h
      by_contra hc
      exact h (fun x hx hv => hc ⟨x, hx, by simpa using hv⟩)
    · rintro ⟨x, hx, hv⟩ h
      exact h x hx (by simpa using hv)
  · intro v
    rfl
  · intro more later hlater v hv
    rw [statusLoop_ok] at hlater
    cases hlater
    simp only [List.find?_append]
    obtain ⟨x, hx, hxv⟩ := List.mem_map.mp hv
    cases hf : recs.find? (fun r => r.VersionID = v) with
    | none =>
      rw [List.find?_eq_none] at hf
      exact absurd (by simpa using hxv) (hf x hx)
    | some y => simp

/-! ### A failed step commits no ledger mutation -/

/-- C2. If executing a step (`Migration.run`, for a SQL script in either
transaction mode or a Go migration, in either direction, from any ledger)
returns an error, the committed ledger rows after the call are those before it;
a step that is not a SQL script then leaves the whole database as it was.  The
same holds of `runSQLMigration` itself, which in transactional mode leaves the
whole database as it was. -/
theorem failed_step_commits_no_ledger_mutation (env : Env) (m : Migration)
    (direction : Bool) (w : World) (h : (m.run env direction w).1 ≠ none) :
    (m.run env direction w).2.db.ledger = w.db.ledger ∧
    (filepath.Ext m.Source ≠ ".sql" → (m.run env direction w).2.db = w.db) ∧
    (∀ statements useTx,
      (runSQLMigration env statements useTx m.Service m.Version direction w).1 ≠ none →
      (runSQLMigration env statements useTx m.Service m.Version direction w).2.db.ledger
          = w.db.ledger ∧
      (useTx = true →
        (runSQLMigration env statements useTx m.Service m.Version direction w).2.db = w.db)) := by
  obtain ⟨e, he⟩ := Option.ne_none_iff_exists'.mp h
  refine ⟨(run_effect m env direction w).2.1 e he, ?_, ?_⟩
  · intro hsql
    unfold Migration.run at he ⊢
    rw [if_neg hsql] at he ⊢
    split_ifs at he ⊢ with hgo
    exact (runGo_effect m env direction w).2.1 e he
  · intro statements useTx hr
    obtain ⟨e2, he2⟩ := Option.ne_none_iff_exists'.mp hr
    exact (runSQLMigration_effect env statements useTx m.Service m.Version direction w).2.2.1 e2 he2

/-- C2, at concrete inputs: a failing statement inside a transaction, a failing
statement outside one, a failing Go function, an unregistered Go migration and
a failing ledger write each return an error and leave the ledger rows alone. -/
theorem failed_step_commits_no_ledger_mutation_witness :
    (((scriptStep 1 "00001_a.sql").run (exampleEnv [1]) true (worldWith allApplied)).1 ≠ none ∧
      ((scriptStep 1 "00001_a.sql").run (exampleEnv [1]) true (worldWith allApplied)).2.db.ledger
        = some allApplied) ∧
    (((scriptStep 2 "00002_b.sql").run (exampleEnv [0]) false (worldWith allApplied)).1 ≠ none ∧
      ((scriptStep 2 "00002_b.sql").run (exampleEnv [0]) false (worldWith allApplied)).2.db.ledger
        = some allApplied) ∧
    (((goStep 3 "00003_c.go" none (some (fun _ => .error "no such user"))).run
        (exampleEnv []) false (worldWith allApplied)).1 ≠ none ∧
      ((goStep 3 "00003_c.go" none (some (fun _ => .error "no such user"))).run
        (exampleEnv []) false (worldWith allApplied)).2.db.ledger = some allApplied) ∧
    (((scriptStep 3 "00003_c.go").run (exampleEnv []) false (worldWith allApplied)).1 ≠ none ∧
      ((scriptStep 3 "00003_c.go").run (exampleEnv []) false (worldWith allApplied)).2.db.ledger
        = some allApplied) ∧
    (((scriptStep 1 "00001_a.sql").run (exampleEnv [2]) false (worldWith allApplied)).1 ≠ none ∧
      ((scriptStep 1 "00001_a.sql").run (exampleEnv [2]) false (worldWith allApplied)).2.db.ledger
        = some allApplied) :=
  ⟨⟨by decide, (failed_step_commits_no_ledger_mutation _ _ _ _ (by decide)).1⟩,
   ⟨by decide, (failed_step_commits_no_ledger_mutation _ _ _ _ (by decide)).1⟩,
   ⟨by decide, (failed_step_commits_no_ledger_mutation _ _ _ _ (by decide)).1⟩,
   ⟨by decide, (failed_step_commits_no_ledger_mutation _ _ _ _ (by decide)).1⟩,
   ⟨by decide, (failed_step_commits_no_ledger_mutation _ _ _ _ (by decide)).1⟩⟩

/-! ### The current version under changes of the ledger -/

/-- The current version depends on the ledger only through the applied
versions. -/
theorem currentVersion_congr (service : String) (d d1 : Database) (L L1 : List LedgerRow)
    (h : d.ledger = some L) (h1 : d1.ledger = some L1)
    (hiff : ∀ u, Applied service L1 u ↔ Applied service L u) :
    currentVersion service d1 = currentVersion service d := by
  obtain ⟨a1, a2, a3⟩ := currentVersion_spec service d L h
  by_cases hex : ∃ u, Applied service L u
  · exact currentVersion_eq service d1 L1 h1 _ ((hiff _).mpr (a2 hex))
      (fun u hu => a1 u ((hiff u).mp hu))
  · push_neg at hex
    rw [a3 hex]
    exact (currentVersion_spec service d1 L1 h1).2.2 (fun u hu => hex u ((hiff u).mp hu))

/-- Taking a version that is not the current one out of the applied versions
leaves the current version as it is. -/
theorem currentVersion_remove (service : String) (d d1 : Database) (L L1 : List LedgerRow)
    (h : d.ledger = some L) (h1 : d1.ledger = some L1) (v : Int)
    (hiff : ∀ u, Applied service L1 u ↔ u ≠ v ∧ Applied service L u)
    (hv : v ≠ currentVersion service d) :
    currentVersion service d1 = currentVersion service d := by
  obtain ⟨a1, a2, a3⟩ := currentVersion_spec service d L h
  by_cases hex : ∃ u, Applied service L u
  · exact currentVersion_eq service d1 L1 h1 _ ((hiff _).mpr ⟨fun e => hv e.symm, a2 hex⟩)
      (fun u hu => a1 u ((hiff u).mp hu).2)
  · push_neg at hex
    rw [a3 hex]
    exact (currentVersion_spec service d1 L1 h1).2.2 (fun u hu => hex u ((hiff u).mp hu).2)

/-- A successful `Down` of a step with a `.sql` or `.go` source: the ledger
before and after, and the status of every version after it. -/
theorem Down_ok_applied (m : Migration) (env : Env) (w : World)
    (hok : (m.Down env w).1 = none) (hsrc : RunnableSource m.Source) :
    ∃ L L1, w.db.ledger = some L ∧ (m.Down env w).2.db.ledger = some L1 ∧
      ∀ service u, Applied service L1 u ↔
        ¬ (m.Service = service ∧ m.Version = u) ∧ Applied service L u := by
  obtain ⟨h1, h2, -⟩ := Down_effect m env w
  rw [h1] at hok
  obtain ⟨inTx, L, hL, hl⟩ := (run_effect m env false w).2.2.1 hok hsrc
  refine ⟨L, _, hL, by rw [h2]; exact hl, ?_⟩
  intro service u
  rw [Applied_ledgerWrite]
  split_ifs with hc <;> simp [hc]

/-- A successful `Up` of a step with a `.sql` or `.go` source: the ledger
before and after, and the status of every version after it. -/
theorem Up_ok_applied (m : Migration) (env : Env) (w : World)
    (hok : (m.Up env w).1 = none) (hsrc : RunnableSource m.Source) :
    ∃ L L1, w.db.ledger = some L ∧ (m.Up env w).2.db.ledger = some L1 ∧
      ∀ service u, Applied service L1 u ↔
        (m.Service = service ∧ m.Version = u) ∨ Applied service L u := by
  obtain ⟨h1, h2, -⟩ := Up_effect m env w
  rw [h1] at hok
  obtain ⟨inTx, L, hL, hl⟩ := (run_effect m env true w).2.2.1 hok hsrc
  refine ⟨L, _, hL, by rw [h2]; exact hl, ?_⟩
  intro service u
  rw [Applied_ledgerWrite]
  split_ifs with hc <;> simp [hc]

/-- `Up` and `Down` of a step whose source is neither `.sql` nor `.go` leave
the database alone. -/
theorem run_not_runnable_db (m : Migration) (env : Env) (w : World)
    (hsrc : ¬ RunnableSource m.Source) :
    (m.Up env w).2.db = w.db ∧ (m.Down env w).2.db = w.db := by
  have hu := (run_effect m env true w).2.2.2 hsrc
  have hd := (run_effect m env false w).2.2.2 hsrc
  refine ⟨?_, ?_⟩
  · rw [(Up_effect m env w).2.1, hu]
  · rw [(Down_effect m env w).2.1, hd]

/-! ### Reverting a step -/

/-- A successful revert inside a transaction (a SQL script in transactional
mode) leaves no ledger row of the `(service, version)` pair. -/
theorem revert_in_transaction_purges (env : Env) (statements : List String)
    (service : String) (v : Int) (w : World)
    (hok : (runSQLMigration env statements true service v false w).1 = none) :
    ∃ L1, (runSQLMigration env statements true service v false w).2.db.ledger = some L1 ∧
      ∀ r ∈ L1, ¬ (r.version_id = v ∧ r.service = service) := by
  obtain ⟨L, -, hl⟩ := (runSQLMigration_effect env statements true service v false w).2.2.2 hok
  refine ⟨_, hl, ?_⟩
  intro r hr hc
  have h2 := (List.mem_filter.mp (show r ∈ L.filter
    (fun r => ¬ (r.version_id = v ∧ r.service = service)) from hr)).2
  simp [hc] at h2

/-- A successful revert of a Go migration leaves no ledger row of the
`(service, version)` pair. -/
theorem revert_go_purges (m : Migration) (env : Env) (w : World)
    (hok : (m.runGo env false w).1 = none) :
    ∃ L1, (m.runGo env false w).2.db.ledger = some L1 ∧
      ∀ r ∈ L1, ¬ (r.version_id = m.Version ∧ r.service = m.Service) := by
  obtain ⟨L, -, hl⟩ := (runGo_effect m env false w).2.2 hok
  refine ⟨_, hl, ?_⟩
  intro r hr hc
  have h2 := (List.mem_filter.mp (show r ∈ L.filter
    (fun r => ¬ (r.version_id = m.Version ∧ r.service = m.Service)) from hr)).2
  simp [hc] at h2

/-- A successful revert outside a transaction keeps every ledger row and puts
one more row of the `(service, version)` pair, not applied, in front. -/
theorem revert_without_transaction_inserts (env : Env) (statements : List String)
    (service : String) (v : Int) (w : World)
    (hok : (runSQLMigration env statements false service v false w).1 = none) :
    ∃ L, w.db.ledger = some L ∧
      (runSQLMigration env statements false service v false w).2.db.ledger =
        some (⟨v, service, false⟩ :: L) := by
  obtain ⟨L, hL, hl⟩ := (runSQLMigration_effect env statements false service v false w).2.2.2 hok
  exact ⟨L, hL, by simpa [ledgerWrite] using hl⟩

/-- C3, at the failing input.  With versions 1, 2 and 3 applied, `Down` of the
script of version 2, which runs without a transaction, succeeds and leaves two
rows of version 2 in the ledger: the applied one and a new one that is not
applied.  `Down` of the script of version 1 (in a transaction) and of the Go
migration of version 3 delete the rows of their version. -/
theorem Down_without_transaction_keeps_rows :
    ((scriptStep 2 "00002_b.sql").Down (exampleEnv []) (worldWith allApplied)).1 = none ∧
    ((scriptStep 2 "00002_b.sql").Down (exampleEnv []) (worldWith allApplied)).2.db.ledger =
      some [⟨2, "default", false⟩, ⟨3, "default", true⟩, ⟨2, "default", true⟩,
        ⟨1, "default", true⟩] ∧
    ((scriptStep 1 "00001_a.sql").Down (exampleEnv []) (worldWith allApplied)).2.db.ledger =
      some [⟨3, "default", true⟩, ⟨2, "default", true⟩] ∧
    ((goStep 3 "00003_c.go" (some renameRoot) none).Down (exampleEnv [])
        (worldWith allApplied)).2.db.ledger =
      some [⟨2, "default", true⟩, ⟨1, "default", true⟩] := by
  decide

/-! ### Up, then Down -/

/-- C7, as stated, fails when the step is the one currently applied: with
version 1 applied, `Up` of version 1 and then `Down` of it both succeed, the
current version was 1 before and is 0 after. -/
theorem up_then_down_of_current_version_changes_it :
    ((scriptStep 1 "00001_a.sql").Up (exampleEnv []) (worldWith [⟨1, "default", true⟩])).1 = none ∧
    ((scriptStep 1 "00001_a.sql").Down (exampleEnv [])
      ((scriptStep 1 "00001_a.sql").Up (exampleEnv [])
        (worldWith [⟨1, "default", true⟩])).2).1 = none ∧
    currentVersion "default" (worldWith [⟨1, "default", true⟩]).db = 1 ∧
    currentVersion "default" ((scriptStep 1 "00001_a.sql").Down (exampleEnv [])
      ((scriptStep 1 "00001_a.sql").Up (exampleEnv [])
        (worldWith [⟨1, "default", true⟩])).2).2.db = 0 := by
  decide

/-- C7, amended.  For every ledger state and every step whose version is not
the current version of its service before the apply, `Migration.Up` and then
immediately `Migration.Down`, both succeeding, leave the current version of
every service equal to its value before the apply. -/
theorem up_then_down_restores_currentVersion (env : Env) (m : Migration) (w : World)
    (service : String)
    (hup : (m.Up env w).1 = none)
    (hdown : (m.Down env (m.Up env w).2).1 = none)
    (hne : m.Version ≠ currentVersion m.Service w.db) :
    currentVersion service (m.Down env (m.Up env w).2).2.db = currentVersion service w.db := by
  by_cases hsrc : RunnableSource m.Source
  · obtain ⟨L, L1, hL, hL1, hA1⟩ := Up_ok_applied m env w hup hsrc
    obtain ⟨L1', L2, hL1', hL2, hA2⟩ := Down_ok_applied m env _ hdown hsrc
    have : L1' = L1 := by
      rw [hL1] at hL1'
      exact (Option.some.inj hL1').symm
    subst this
    by_cases hs : m.Service = service
    · subst hs
      refine currentVersion_remove m.Service _ _ L L2 hL hL2 m.Version ?_ hne
      intro u
      rw [hA2, hA1]
      constructor
      · rintro ⟨h1, h2 | h2⟩
        · exact absurd h2 h1
        · exact ⟨fun e => h1 ⟨rfl, e.symm⟩, h2⟩
      · rintro ⟨h1, h2⟩
        exact ⟨fun e => h1 e.2.symm, Or.inr h2⟩
    · refine currentVersion_congr service _ _ L L2 hL hL2 ?_
      intro u
      rw [hA2, hA1]
      simp [hs]
  · rw [(run_not_runnable_db m env _ hsrc).2, (run_not_runnable_db m env _ hsrc).1]

/-- C7, amended, at a concrete input: with version 1 applied, `Up` and then
`Down` of version 2 leave the current version at 1. -/
theorem up_then_down_restores_currentVersion_witness :
    currentVersion "default" (worldWith [⟨1, "default", true⟩]).db = 1 ∧
    currentVersion "default" ((scriptStep 2 "00002_b.sql").Down (exampleEnv [])
      ((scriptStep 2 "00002_b.sql").Up (exampleEnv [])
        (worldWith [⟨1, "default", true⟩])).2).2.db =
      currentVersion "default" (worldWith [⟨1, "default", true⟩]).db :=
  ⟨by decide,
    up_then_down_restores_currentVersion (exampleEnv []) (scriptStep 2 "00002_b.sql")
      (worldWith [⟨1, "default", true⟩]) "default" (by decide) (by decide) (by decide)⟩

/-! ### The SQL of the dialects -/

/-- A text contains another one. -/
theorem infix_of_append (a n b : String) : n.data <:+: (a ++ n ++ b).data := by
  simp only [String.data_append]
  exact List.infix_append _ _ _

/-- Every template that interpolates `TableName()` names the table that is
configured when it is called: all templates of all dialects, except the
create-table template of ClickHouse. -/
theorem templates_name_configured_table (d : SQLDialect) (cfg : Config) (n service : String) :
    (d ≠ .ClickHouseDialect →
      n.data <:+: (d.createVersionTableSQL (SetTableName n cfg)).data) ∧
    n.data <:+: (d.insertVersionSQL (SetTableName n cfg) service).data ∧
    n.data <:+: (d.deleteVersionSQL (SetTableName n cfg) service).data ∧
    n.data <:+: (d.migrationSQL (SetTableName n cfg) service).data ∧
    n.data <:+: (d.dbVersionQuerySQL (SetTableName n cfg) service).data := by
  have key : ∀ a b : String, n.data <:+: (a ++ n ++ b).data := fun a b => infix_of_append a n b
  have key2 : ∀ a b c e : String, n.data <:+: (a ++ n ++ b ++ c ++ e).data := by
    intro a b c e
    have := infix_of_append a n (b ++ c ++ e)
    simp [String.append_assoc] at this ⊢
  refine ⟨?_, ?_, ?_, ?_, ?_⟩
  · intro hd
    cases d <;> first | exact absurd rfl hd | exact key _ _
  all_goals cases d <;> first | exact key _ _ | exact key2 _ _ _ _

set_option maxRecDepth 100000 in
/-- C9, at the failing input.  After `SetDialect("clickhouse")` and
`SetTableName("events")` the insert, delete and query templates name the table
`events`, but the create-table template still names `goose_db_version`: its
text does not depend on the configured name and does not contain it. -/
theorem clickhouse_createVersionTableSQL_ignores_table_name :
    (SetDialect "clickhouse" Config.initial).2 = none ∧
    (GetDialect (SetTableName "events" (SetDialect "clickhouse" Config.initial).1)).createVersionTableSQL
        (SetTableName "events" (SetDialect "clickhouse" Config.initial).1) =
      "\n    CREATE TABLE goose_db_version (\n      version_id Int64,\n      is_applied UInt8,\n      date Date default now(),\n      tstamp DateTime default now()\n    ) Engine = MergeTree(date, (date), 8192)\n\t" ∧
    ¬ ("events".data <:+:
      ((GetDialect (SetTableName "events" (SetDialect "clickhouse" Config.initial).1)).createVersionTableSQL
        (SetTableName "events" (SetDialect "clickhouse" Config.initial).1)).data) ∧
    (GetDialect (SetTableName "events" (SetDialect "clickhouse" Config.initial).1)).insertVersionSQL
        (SetTableName "events" (SetDialect "clickhouse" Config.initial).1) "default" =
      "INSERT INTO events (version_id, is_applied) VALUES (?, ?)" ∧
    (∀ n cfg, SQLDialect.ClickHouseDialect.createVersionTableSQL (SetTableName n cfg) =
      SQLDialect.ClickHouseDialect.createVersionTableSQL cfg) := by
  refine ⟨by decide, rfl, by decide, by decide, fun _ _ => rfl⟩

theorem append_middle_injective (a b s t : String) (h : a ++ s ++ b = a ++ t ++ b) : s = t := by
  have hd := congrArg String.data h
  simp only [String.data_append] at hd
  have h1 := List.append_cancel_right hd
  have h2 := List.append_cancel_left h1
  exact String.ext h2

/-- The templates of `PostgresDialect` are scoped by the service: different
services give different SQL.  The templates of every other dialect do not
depend on the service. -/
theorem service_scoping_by_dialect (d : SQLDialect) (cfg : Config) (s t : String) :
    (d = .PostgresDialect → s ≠ t →
      d.insertVersionSQL cfg s ≠ d.insertVersionSQL cfg t ∧
      d.deleteVersionSQL cfg s ≠ d.deleteVersionSQL cfg t ∧
      d.migrationSQL cfg s ≠ d.migrationSQL cfg t ∧
      d.dbVersionQuerySQL cfg s ≠ d.dbVersionQuerySQL cfg t) ∧
    (d ≠ .PostgresDialect →
      d.insertVersionSQL cfg s = d.insertVersionSQL cfg t ∧
      d.deleteVersionSQL cfg s = d.deleteVersionSQL cfg t ∧
      d.migrationSQL cfg s = d.migrationSQL cfg t ∧
      d.dbVersionQuerySQL cfg s = d.dbVersionQuerySQL cfg t) := by
  constructor
  · rintro rfl hst
    refine ⟨?_, ?_, ?_, ?_⟩ <;>
      exact fun h => hst (append_middle_injective _ _ _ _ h)
  · intro hd
    cases d <;> first | exact absurd rfl hd | exact ⟨rfl, rfl, rfl, rfl⟩

/-- C10, at the failing input.  With the `mysql` dialect the insert-event SQL
does not mention the service, and the insert, delete, latest-event and
full-ledger SQL of the services `billing` and `orders` are the same text. -/
theorem mysql_ledger_sql_ignores_service :
    (SetDialect "mysql" Config.initial).2 = none ∧
    (GetDialect (SetDialect "mysql" Config.initial).1).insertVersionSQL
        (SetDialect "mysql" Config.initial).1 "billing" =
      "INSERT INTO goose_db_version (version_id, is_applied) VALUES (?, ?);" ∧
    (GetDialect (SetDialect "mysql" Config.initial).1).insertVersionSQL
        (SetDialect "mysql" Config.initial).1 "orders" =
      "INSERT INTO goose_db_version (version_id, is_applied) VALUES (?, ?);" ∧
    (GetDialect (SetDialect "mysql" Config.initial).1).deleteVersionSQL
        (SetDialect "mysql" Config.initial).1 "billing" =
      (GetDialect (SetDialect "mysql" Config.initial).1).deleteVersionSQL
        (SetDialect "mysql" Config.initial).1 "orders" ∧
    (GetDialect (SetDialect "mysql" Config.initial).1).migrationSQL
        (SetDialect "mysql" Config.initial).1 "billing" =
      (GetDialect (SetDialect "mysql" Config.initial).1).migrationSQL
        (SetDialect "mysql" Config.initial).1 "orders" ∧
    (GetDialect (SetDialect "mysql" Config.initial).1).dbVersionQuerySQL
        (SetDialect "mysql" Config.initial).1 "billing" =
      "SELECT version_id, is_applied from goose_db_version ORDER BY id DESC" ∧
    (GetDialect (SetDialect "mysql" Config.initial).1).dbVersionQuerySQL
        (SetDialect "mysql" Config.initial).1 "orders" =
      "SELECT version_id, is_applied from goose_db_version ORDER BY id DESC" := by
  refine ⟨by decide, ?_, ?_, ?_, ?_, ?_, ?_⟩ <;> decide

/-! ### `Redo` -/

theorem scanAll_ok (recs : List MigrationRecord) : scanAll (recs.map .ok) = .ok recs := by
  induction recs with
  | nil => rfl
  | cons r rest ih => simp [scanAll, ih]

/-- With a ledger table, `GetDBVersion` is a pure read of the current
version. -/
theorem GetDBVersion_of_table (env : Env) (service : String) (w : World) (L : List LedgerRow)
    (h : w.db.ledger = some L) :
    GetDBVersion env service w = ((currentVersion service w.db, none), w) := by
  unfold GetDBVersion ledgerEvents currentVersion
  rw [h]
  simp only [scanAll_ok]

theorem Current_ok (ms : Migrations) (v : Int) (m : Migration) (h : ms.Current v = .ok m) :
    m ∈ ms ∧ m.Version = v := by
  unfold Migrations.Current at h
  split at h
  · rename_i m1 hf
    cases h
    exact ⟨List.mem_of_find?_eq_some hf, by simpa using List.find?_some hf⟩
  · cases h

/-- C8. For every ledger whose current version has a catalog entry, a
successful `Redo` leaves the world that one `Down` and then one `Up` of that
entry leave from the same start; in it the current version equals its value
before `Redo` and the latest event of the entry is applied. -/
theorem Redo_is_Down_then_Up (env : Env) (service dir : String) (w : World)
    (L : List LedgerRow) (ms : Migrations) (current : Migration)
    (hL : w.db.ledger = some L)
    (hc : env.CollectMigrations service dir = .ok ms)
    (hcat : ValidCatalog service ms)
    (hcur : ms.Current (currentVersion service w.db) = .ok current)
    (hok : (Redo env service dir w).1 = none) :
    (current.Down env w).1 = none ∧
    (current.Up env (current.Down env w).2).1 = none ∧
    (Redo env service dir w).2 = (current.Up env (current.Down env w).2).2 ∧
    currentVersion service (Redo env service dir w).2.db = currentVersion service w.db ∧
    ∃ L1, (Redo env service dir w).2.db.ledger = some L1 ∧
      latestFlag service L1 current.Version = some true := by
  obtain ⟨hmem, hver⟩ := Current_ok _ _ _ hcur
  have hsrc := hcat.runnable current hmem
  have hsvc := hcat.ofService current hmem
  have hRedo : Redo env service dir w =
      match current.Down env w with
      | (some err, w2) => (some err, w2)
      | (none, w2) =>
        match current.Up env w2 with
        | (some err, w3) => (some err, w3)
        | (none, w3) => (none, w3) := by
    unfold Redo
    rw [GetDBVersion_of_table env service w L hL]
    simp only [hc, hcur]
  rw [hRedo] at hok ⊢
  cases hd : current.Down env w with
  | mk e1 w2 =>
    rw [hd] at hok
    cases e1 with
    | some err => simp at hok
    | none =>
      simp only [] at hok ⊢
      cases hu : current.Up env w2 with
      | mk e2 w3 =>
        rw [hu] at hok
        cases e2 with
        | some err => simp at hok
        | none =>
          simp only [true_and]
          obtain ⟨L0, L1, hL0, hL1, hA1⟩ := Down_ok_applied current env w (by rw [hd]) hsrc
          rw [hd] at hL1
          simp only [] at hL1
          obtain ⟨L1', L2, hL1', hL2, hA2⟩ := Up_ok_applied current env w2 (by rw [hu]) hsrc
          rw [hu] at hL2
          simp only [] at hL2
          have e1 : L1' = L1 := by
            rw [hL1] at hL1'
            exact (Option.some.inj hL1').symm
          have e0 : L0 = L := by
            rw [hL] at hL0
            exact (Option.some.inj hL0).symm
          subst e1 e0
          have hcv : Applied service L2 current.Version := (hA2 service _).mpr (Or.inl ⟨hsvc, rfl⟩)
          refine ⟨?_, L2, hL2, hcv⟩
          rw [← hver]
          refine currentVersion_eq service w3.db L2 hL2 _ hcv ?_
          intro u hu2
          rcases (hA2 service u).mp hu2 with h | h
          · exact le_of_eq h.2.symm
          · have := ((hA1 service u).mp h).2
            rw [hver]
            exact (currentVersion_spec service w.db L0 hL).1 u this

theorem exampleCatalog_valid : ValidCatalog "default" exampleCatalog where
  distinct := by decide
  positive := by simp [exampleCatalog, scriptStep, goStep]
  runnable := by
    intro m hm
    simp only [exampleCatalog, List.mem_cons, List.mem_singleton, List.not_mem_nil, or_false] at hm
    rcases hm with rfl | rfl | rfl <;> decide
  ofService := by simp [exampleCatalog, scriptStep, goStep]

/-- C8, at a concrete input: with versions 1, 2 and 3 applied, `Redo` succeeds
on the Go migration of version 3 and leaves the current version at 3. -/
theorem Redo_is_Down_then_Up_witness :
    (Redo (exampleEnv []) "default" "migrations" (worldWith allApplied)).1 = none ∧
    currentVersion "default" (worldWith allApplied).db = 3 ∧
    currentVersion "default" (Redo (exampleEnv []) "default" "migrations"
      (worldWith allApplied)).2.db = currentVersion "default" (worldWith allApplied).db :=
  ⟨by decide, by decide,
    (Redo_is_Down_then_Up (exampleEnv []) "default" "migrations" (worldWith allApplied)
      allApplied exampleCatalog (goStep 3 "00003_c.go" (some renameRoot) none)
      rfl rfl exampleCatalog_valid rfl (by decide)).2.2.2.1⟩

/-! ### Reachable worlds -/

theorem mem_ledgerWrite (inTx : Bool) (s : String) (v : Int) (direction : Bool)
    (L : List LedgerRow) (r : LedgerRow) (h : r ∈ ledgerWrite inTx s v direction L) :
    r ∈ L ∨ (r.version_id = v ∧ r.service = s) := by
  unfold ledgerWrite at h
  split_ifs at h
  · rcases List.mem_cons.mp h with h | h
    · right; simp [h]
    · left; exact h
  · left; exact (List.mem_filter.mp h).1
  · rcases List.mem_cons.mp h with h | h
    · right; simp [h]
    · left; exact h

theorem LedgerWithin_run (env : Env) (ms : Migrations) (m : Migration) (hm : m ∈ ms)
    (direction : Bool) (w : World) (h : LedgerWithin ms w.db) :
    LedgerWithin ms (m.run env direction w).2.db := by
  obtain ⟨-, herr, hok, hno⟩ := run_effect m env direction w
  by_cases hsrc : RunnableSource m.Source
  · cases he : (m.run env direction w).1 with
    | some e =>
      intro L hL r hr
      rw [herr e he] at hL
      exact h L hL r hr
    | none =>
      obtain ⟨inTx, L0, hL0, hl⟩ := hok he hsrc
      intro L hL r hr
      rw [hl] at hL
      cases hL
      rcases mem_ledgerWrite _ _ _ _ _ _ hr with h1 | h1
      · exact h L0 hL0 r h1
      · exact ⟨m, hm, h1.1.symm, h1.2.symm, hsrc⟩
  · rw [hno hsrc]
    exact h

/-- In a reachable world every row of the ledger was written by a step of the
catalog. -/
theorem Reachable.ledgerWithin {env : Env} {ms : Migrations} {w : World}
    (h : Reachable env ms w) : LedgerWithin ms w.db := by
  induction h with
  | fresh w h =>
    intro L hL r hr
    rcases h with h | h
    · rw [h] at hL; cases hL
    · rw [h] at hL; cases hL; simp at hr
  | up w m hw hm ih =>
    rw [(Up_effect m env w).2.1]
    exact LedgerWithin_run env ms m hm true w ih
  | down w m hw hm ih =>
    rw [(Down_effect m env w).2.1]
    exact LedgerWithin_run env ms m hm false w ih
  | version w service hw ih =>
    cases hl : w.db.ledger with
    | some L =>
      rw [GetDBVersion_of_table env service w L hl]
      exact ih
    | none =>
      intro L hL r hr
      unfold GetDBVersion ledgerEvents at hL
      rw [hl] at hL
      simp only [] at hL
      have herr := Exec_err env .createVersionTable w.db w
      have hok := Exec_ok env .createVersionTable w.db w
      cases hx : Exec env .createVersionTable w.db w with
      | mk e rest =>
        obtain ⟨d1, w1⟩ := rest
        rw [hx] at hL herr hok
        simp only [] at hL herr hok
        cases e with
        | some e =>
          rw [herr e rfl, hl] at hL
          cases hL
        | none =>
          have := hok rfl
          simp only [Statement.apply, hl] at this
          cases this
          simp only [] at hL
          cases hL
          simp at hr

/-! ### `Reset` -/

theorem sortReverse_perm (ms : Migrations) : (sortReverse ms).Perm ms :=
  List.perm_insertionSort _ ms

/-- The versions of the reversed catalog go down; strictly so when they are
distinct. -/
theorem sortReverse_descending (ms : Migrations)
    (hd : (ms.map (fun m => m.Version)).Nodup) :
    ((sortReverse ms).map (fun m => m.Version)).Pairwise (fun a b => b < a) := by
  have hs : (sortReverse ms).Pairwise (fun a b => b.Version ≤ a.Version) :=
    List.sorted_insertionSort _ ms
  have hn : ((sortReverse ms).map (fun m => m.Version)).Nodup :=
    ((sortReverse_perm ms).map _).nodup_iff.mpr hd
  have hs2 : ((sortReverse ms).map (fun m => m.Version)).Pairwise (fun a b => b ≤ a) :=
    List.pairwise_map.mpr hs
  exact (hs2.and hn).imp (fun h => lt_of_le_of_ne h.1 (fun e => h.2 e.symm))

/-- The loop of `Reset` from a world with a ledger table: it calls `Down`, and
nothing else, on the entries the snapshot marks applied, in the order of the
list; when every call succeeds it returns no error, and the applied versions
afterwards are those of before that were not reverted. -/
theorem resetLoop_spec (env : Env) (statuses : StatusMap) (service : String)
    (xs : Migrations) :
    ∀ (w : World) (L : List LedgerRow), w.db.ledger = some L →
      (∀ m ∈ xs, statuses.index m.Version = true →
        RunnableSource m.Source ∧ m.Service = service) →
      ∃ recs : List RunRecord,
        (resetLoop env statuses xs w).2.trace = w.trace ++ recs ∧
        (∀ r ∈ recs, r.direction = false) ∧
        ((∀ r ∈ recs, r.ok = true) →
          (resetLoop env statuses xs w).1 = none ∧
          recs.map (fun r => r.Version) =
            (xs.filter (fun m => statuses.index m.Version)).map (fun m => m.Version) ∧
          ∃ L1, (resetLoop env statuses xs w).2.db.ledger = some L1 ∧
            ∀ u, Applied service L1 u ↔
              Applied service L u ∧
                u ∉ (xs.filter (fun m => statuses.index m.Version)).map (fun m => m.Version)) := by
  induction xs with
  | nil =>
    intro w L hL _
    exact ⟨[], by simp [resetLoop], by simp, fun _ => ⟨rfl, rfl, L, hL, by simp⟩⟩
  | cons m rest ih =>
    intro w L hL hx
    have hrest : ∀ m1 ∈ rest, statuses.index m1.Version = true →
        RunnableSource m1.Source ∧ m1.Service = service :=
      fun m1 h1 => hx m1 (List.mem_cons_of_mem _ h1)
    unfold resetLoop
    by_cases hst : statuses.index m.Version = true
    · rw [if_neg (by simp [hst])]
      obtain ⟨hsrc, hsvc⟩ := hx m (List.mem_cons_self _ _) hst
      obtain ⟨he, hdb, htr⟩ := Down_effect m env w
      cases hd : m.Down env w with
      | mk e1 w1 =>
        rw [hd] at he hdb htr
        simp only [] at he hdb htr
        cases e1 with
        | some e =>
          refine ⟨[⟨m.Version, false, false⟩], ?_, by simp, ?_⟩
          · simp only []
            rw [htr, ← he]
            rfl
          · intro hall
            have := hall _ (List.mem_singleton_self _)
            simp at this
        | none =>
          obtain ⟨L0, L1, hL0, hL1, hA⟩ := Down_ok_applied m env w (by rw [hd]) hsrc
          rw [hd] at hL1
          simp only [] at hL1
          have e0 : L0 = L := by
            rw [hL] at hL0
            exact (Option.some.inj hL0).symm
          subst e0
          obtain ⟨recs, h1, h2, h3⟩ := ih w1 L1 hL1 hrest
          refine ⟨⟨m.Version, false, true⟩ :: recs, ?_, ?_, ?_⟩
          · simp only []
            rw [h1, htr, ← he]
            simp
          · intro r hr
            rcases List.mem_cons.mp hr with h | h
            · rw [h]
            · exact h2 r h
          · intro hall
            obtain ⟨g1, g2, L2, g3, g4⟩ := h3 (fun r hr => hall r (List.mem_cons_of_mem _ hr))
            refine ⟨g1, ?_, L2, g3, ?_⟩
            · simp [List.filter_cons, hst, g2]
            · intro u
              rw [g4, hA]
              simp only [List.filter_cons, hst, if_true, List.map_cons, List.mem_cons, not_or]
              constructor
              · rintro ⟨⟨a1, a2⟩, a3⟩
                exact ⟨a2, fun e => a1 ⟨hsvc, e.symm⟩, a3⟩
              · rintro ⟨a1, a2, a3⟩
                exact ⟨⟨fun e => a2 e.2.symm, a1⟩, a3⟩
    · rw [if_pos (by simp [hst])]
      obtain ⟨recs, h1, h2, h3⟩ := ih w L hL hrest
      refine ⟨recs, h1, h2, ?_⟩
      intro hall
      obtain ⟨g1, g2, L2, g3, g4⟩ := h3 hall
      refine ⟨g1, ?_, L2, g3, ?_⟩
      · simp [List.filter_cons, hst, g2]
      · intro u
        rw [g4]
        simp [List.filter_cons, hst]

/-- Without an applied entry in the snapshot, the loop of `Reset` does
nothing. -/
theorem resetLoop_nothing (env : Env) (statuses : StatusMap) (xs : Migrations) (w : World)
    (h : ∀ m ∈ xs, statuses.index m.Version = false) :
    resetLoop env statuses xs w = (none, w) := by
  induction xs with
  | nil => rfl
  | cons m rest ih =>
    unfold resetLoop
    rw [if_pos (by simp [h m (List.mem_cons_self _ _)])]
    exact ih (fun m1 h1 => h m1 (List.mem_cons_of_mem _ h1))

theorem Applied_row (service : String) (L : List LedgerRow) (v : Int)
    (h : Applied service L v) : ∃ r ∈ L, r.version_id = v ∧ r.service = service := by
  unfold Applied latestFlag at h
  cases hf : (recordsOf service L).find? (fun r => r.VersionID = v) with
  | none => simp [hf] at h
  | some x =>
    have hx := List.mem_of_find?_eq_some hf
    have hv : x.VersionID = v := by simpa using List.find?_some hf
    unfold recordsOf at hx
    obtain ⟨r, hr, rfl⟩ := List.mem_map.mp hx
    obtain ⟨hr1, hr2⟩ := List.mem_filter.mp hr
    exact ⟨r, hr1, hv, by simpa using hr2⟩

theorem index_latestFlag (service : String) (L : List LedgerRow) (v : Int) :
    StatusMap.index (latestFlag service L) v = true ↔ Applied service L v := by
  unfold StatusMap.index Applied
  cases latestFlag service L v with
  | none => simp
  | some b => cases b <;> simp

/-- `Reset` when the full-ledger query fails: the status map is empty, no
migration is reverted, and `Reset` returns no error; only the round trip of the
query has been made. -/
theorem Reset_of_failed_query (env : Env) (service dir : String) (w : World)
    (ms : Migrations) (e : Err)
    (hc : env.CollectMigrations service dir = .ok ms)
    (hq : (dbVersionQuery env service w).1 = .error e) :
    (dbMigrationsStatus env service w).1 = .ok (fun _ => none) ∧
    Reset env service dir w = (none, { w with tick := w.tick + 1 }) := by
  have hw := dbVersionQuery_world env service w
  have hst : dbMigrationsStatus env service w =
      (.ok (fun _ => none), { w with tick := w.tick + 1 }) := by
    unfold dbMigrationsStatus
    cases hx : dbVersionQuery env service w with
    | mk r w1 =>
      rw [hx] at hq hw
      simp only [] at hq hw
      subst hw
      subst hq
      rfl
  refine ⟨by rw [hst], ?_⟩
  unfold Reset
  rw [hc]
  simp only [hst]
  exact resetLoop_nothing env _ _ _ (fun _ _ => rfl)

/-- C5, as stated, fails when the full-ledger query fails.  The example catalog
has distinct versions; the world after `Up` of versions 1, 2 and 3, nine round
trips none of which fails, is reachable with it.  The tenth round trip, the
query of the status snapshot, fails: the snapshot is empty, `Reset` returns no
error without a single call of `Down`, and the current version is 3 before and
after. -/
theorem Reset_after_failed_query_reverts_nothing :
    (exampleEnv [9]).CollectMigrations "default" "migrations" = .ok exampleCatalog ∧
    (exampleCatalog.map (fun m => m.Version)).Nodup ∧
    Reachable (exampleEnv [9]) exampleCatalog appliedWorld ∧
    appliedWorld.tick = 9 ∧
    (dbVersionQuery (exampleEnv [9]) "default" appliedWorld).1 = .error "connection lost" ∧
    (dbMigrationsStatus (exampleEnv [9]) "default" appliedWorld).1 = .ok (fun _ => none) ∧
    (Reset (exampleEnv [9]) "default" "migrations" appliedWorld).1 = none ∧
    (Reset (exampleEnv [9]) "default" "migrations" appliedWorld).2.trace = appliedWorld.trace ∧
    currentVersion "default" appliedWorld.db = 3 ∧
    currentVersion "default"
      (Reset (exampleEnv [9]) "default" "migrations" appliedWorld).2.db = 3 :=
  ⟨rfl, by decide,
    (show Reachable (exampleEnv [9]) exampleCatalog
        ((goStep 3 "00003_c.go" (some renameRoot) none).Up (exampleEnv [9])
          ((scriptStep 2 "00002_b.sql").Up (exampleEnv [9])
            ((scriptStep 1 "00001_a.sql").Up (exampleEnv [9]) emptyWorld).2).2).2 from
      Reachable.up _ _
        (Reachable.up _ _
          (Reachable.up _ _ (Reachable.fresh emptyWorld (Or.inr rfl))
            (by simp [exampleCatalog]))
          (by simp [exampleCatalog]))
        (by simp [exampleCatalog])),
    by decide, rfl, rfl, by decide, by decide, by decide, by decide⟩

/-- C5, amended.  For every catalog of distinct versions, in any order of
enumeration, and every world the engine reaches with that catalog: if the
full-ledger query returns the events of the service, newest first, then `Reset`
calls `Down` and nothing else, and if every one of these reverts succeeds,
`Reset` returns no error, the versions it reverted are exactly those the status
snapshot marks applied, each once and in strictly descending order, and the
current version afterwards is 0.  Without a ledger table `Reset` reverts
nothing, returns no error, and the current version is 0 as well. -/
theorem Reset_reverts_applied_descending (env : Env) (service dir : String) (w : World)
    (ms : Migrations)
    (hc : env.CollectMigrations service dir = .ok ms)
    (hd : (ms.map (fun m => m.Version)).Nodup)
    (hr : Reachable env ms w) :
    (∀ L, w.db.ledger = some L →
      (dbVersionQuery env service w).1 = .ok ((recordsOf service L).map .ok) →
      ∃ (statuses : StatusMap) (recs : List RunRecord),
        (dbMigrationsStatus env service w).1 = .ok statuses ∧
        (Reset env service dir w).2.trace = w.trace ++ recs ∧
        (∀ r ∈ recs, r.direction = false) ∧
        ((∀ r ∈ recs, r.ok = true) →
          (Reset env service dir w).1 = none ∧
          (∀ v, v ∈ recs.map (fun r => r.Version) ↔ statuses v = some true) ∧
          (recs.map (fun r => r.Version)).Pairwise (fun a b => b < a) ∧
          (recs.map (fun r => r.Version)).Nodup ∧
          currentVersion service (Reset env service dir w).2.db = 0)) ∧
    (w.db.ledger = none →
      (Reset env service dir w).1 = none ∧
      (Reset env service dir w).2.trace = w.trace ∧
      currentVersion service (Reset env service dir w).2.db = 0) := by
  have hin := hr.ledgerWithin
  constructor
  · intro L hl hq
    obtain ⟨hst, hdb, -, htr⟩ := dbMigrationsStatus_of_rows env service w _ hq
    cases hs : dbMigrationsStatus env service w with
    | mk r w1 =>
      rw [hs] at hst hdb htr
      simp only [] at hst hdb htr
      subst hst
      have hl1 : w1.db.ledger = some L := by rw [hdb]; exact hl
      have hReset : Reset env service dir w =
          resetLoop env (latestFlag service L) (sortReverse ms) w1 := by
        unfold Reset
        rw [hc]
        simp only [hs]
        rfl
      have hx : ∀ m ∈ sortReverse ms, StatusMap.index (latestFlag service L) m.Version = true →
          RunnableSource m.Source ∧ m.Service = service := by
        intro m hm hidx
        have hmem : m ∈ ms := (sortReverse_perm ms).mem_iff.mp hm
        obtain ⟨r, hr1, hr2, hr3⟩ := Applied_row service L _ ((index_latestFlag _ _ _).mp hidx)
        obtain ⟨m1, hm1, hv1, hs1, hsrc1⟩ := hin L hl r hr1
        have : m1 = m := List.inj_on_of_nodup_map hd hm1 hmem (by rw [hv1, hr2])
        subst this
        exact ⟨hsrc1, hs1.trans hr3⟩
      obtain ⟨recs, h1, h2, h3⟩ := resetLoop_spec env (latestFlag service L) service
        (sortReverse ms) w1 L hl1 hx
      refine ⟨latestFlag service L, recs, rfl, by rw [hReset, h1, htr], h2, fun hall => ?_⟩
      obtain ⟨g1, g2, L1, g3, g4⟩ := h3 hall
      have hdesc := sortReverse_descending ms hd
      have hsub : List.Sublist
          (((sortReverse ms).filter
            (fun m => StatusMap.index (latestFlag service L) m.Version)).map (fun m => m.Version))
          ((sortReverse ms).map (fun m => m.Version)) :=
        (List.filter_sublist _).map _
      have hmemv : ∀ v, v ∈ recs.map (fun r => r.Version) ↔
          latestFlag service L v = some true := by
        intro v
        rw [g2]
        simp only [List.mem_map, List.mem_filter]
        constructor
        · rintro ⟨m, ⟨-, hidx⟩, rfl⟩
          exact (index_latestFlag _ _ _).mp hidx
        · intro hv
          obtain ⟨r, hr1, hr2, hr3⟩ := Applied_row service L v hv
          obtain ⟨m1, hm1, hv1, -, -⟩ := hin L hl r hr1
          refine ⟨m1, ⟨(sortReverse_perm ms).mem_iff.mpr hm1, ?_⟩, hv1.trans hr2⟩
          rw [index_latestFlag, hv1, hr2]
          exact hv
      have hpw : (recs.map (fun r => r.Version)).Pairwise (fun a b => b < a) := by
        rw [g2]
        exact hdesc.sublist hsub
      refine ⟨by rw [hReset]; exact g1, hmemv, hpw, ?_, ?_⟩
      · exact hpw.imp (fun h => (ne_of_lt h).symm)
      · rw [hReset]
        refine (currentVersion_spec service _ L1 g3).2.2 ?_
        intro u hu
        obtain ⟨a1, a2⟩ := (g4 u).mp hu
        rw [← g2] at a2
        exact a2 ((hmemv u).mpr a1)
  · intro hl
    have hq : ∃ e, (dbVersionQuery env service w).1 = .error e := by
      unfold dbVersionQuery
      cases env.fault w.tick with
      | some e => exact ⟨e, rfl⟩
      | none => exact ⟨"no such table", by rw [hl]⟩
    obtain ⟨e, hq⟩ := hq
    obtain ⟨-, hReset⟩ := Reset_of_failed_query env service dir w ms e hc hq
    rw [hReset]
    refine ⟨rfl, rfl, ?_⟩
    unfold currentVersion
    simp only [hl]

theorem appliedWorld_reachable : Reachable (exampleEnv []) exampleCatalog appliedWorld :=
  Reachable.up _ _
    (Reachable.up _ _
      (Reachable.up _ _ (Reachable.fresh emptyWorld (Or.inr rfl))
        (by simp [exampleCatalog]))
      (by simp [exampleCatalog]))
    (by simp [exampleCatalog])

/-- C5, amended, at a concrete input: after `Up` of versions 1, 2 and 3 the
query gives the three events; `Reset` with the catalog enumerated as 2, 1, 3
reverts 3, then 2, then 1, and the current version is 0. -/
theorem Reset_reverts_applied_descending_witness :
    (Reset (exampleEnv []) "default" "migrations" appliedWorld).1 = none ∧
    (Reset (exampleEnv []) "default" "migrations" appliedWorld).2.trace =
      appliedWorld.trace ++ [⟨3, false, true⟩, ⟨2, false, true⟩, ⟨1, false, true⟩] ∧
    currentVersion "default" appliedWorld.db = 3 ∧
    currentVersion "default" (Reset (exampleEnv []) "default" "migrations" appliedWorld).2.db = 0 ∧
    ∃ (statuses : StatusMap) (recs : List RunRecord),
      (dbMigrationsStatus (exampleEnv []) "default" appliedWorld).1 = .ok statuses ∧
      (Reset (exampleEnv []) "default" "migrations" appliedWorld).2.trace =
        appliedWorld.trace ++ recs ∧
      (∀ r ∈ recs, r.direction = false) ∧
      ((∀ r ∈ recs, r.ok = true) →
        (Reset (exampleEnv []) "default" "migrations" appliedWorld).1 = none ∧
        (∀ v, v ∈ recs.map (fun r => r.Version) ↔ statuses v = some true) ∧
        (recs.map (fun r => r.Version)).Pairwise (fun a b => b < a) ∧
        (recs.map (fun r => r.Version)).Nodup ∧
        currentVersion "default"
          (Reset (exampleEnv []) "default" "migrations" appliedWorld).2.db = 0) :=
  ⟨by decide, by decide, by decide, by decide,
    (Reset_reverts_applied_descending (exampleEnv []) "default" "migrations" appliedWorld
      exampleCatalog rfl (by decide) appliedWorld_reachable).1 allApplied rfl rfl⟩

/-! ### `DownTo` -/

theorem mem_appliedFinset (service : String) (L : List LedgerRow) (u : Int) :
    u ∈ (appliedVersions (recordsOf service L)).toFinset ↔ Applied service L u := by
  rw [List.mem_toFinset]
  exact mem_appliedVersions_recordsOf service L u

/-- Reverting an applied version leaves fewer applied versions. -/
theorem appliedCount_lt (service : String) (L L1 : List LedgerRow) (c : Int)
    (hiff : ∀ u, Applied service L1 u ↔ u ≠ c ∧ Applied service L u)
    (hc : Applied service L c) :
    appliedCount service L1 < appliedCount service L := by
  unfold appliedCount
  apply Finset.card_lt_card
  constructor
  · intro u hu
    rw [mem_appliedFinset] at hu ⊢
    exact ((hiff u).mp hu).2
  · intro hsub
    have := hsub ((mem_appliedFinset service L c).mpr hc)
    rw [mem_appliedFinset] at this
    exact ((hiff c).mp this).1 rfl

theorem retained_length_le (rows : List MigrationRecord) :
    (retained rows).length ≤ rows.length := by
  induction rows with
  | nil => simp [retained]
  | cons r rest ih =>
    simp only [retained, List.length_cons]
    exact Nat.succ_le_succ (le_trans (List.length_filter_le _ _) ih)

theorem appliedCount_le_length (service : String) (L : List LedgerRow) :
    appliedCount service L ≤ L.length := by
  unfold appliedCount
  refine le_trans (List.toFinset_card_le _) ?_
  unfold appliedVersions
  rw [List.length_map]
  refine le_trans (List.length_filter_le _ _) ?_
  refine le_trans (retained_length_le _) ?_
  unfold recordsOf
  rw [List.length_map]
  exact List.length_filter_le _ _

theorem Current_error (ms : Migrations) (v : Int) (e : Err) (h : ms.Current v = .error e) :
    ∀ m ∈ ms, m.Version ≠ v := by
  unfold Migrations.Current at h
  split at h
  · cases h
  · rename_i hf
    rw [List.find?_eq_none] at hf
    intro m hm
    simpa using hf m hm

/-- The loop of `DownTo` from a world with a ledger table whose applied
versions all have catalog entries: with more iterations at hand than there are
applied versions it returns; it calls `Down` and nothing else; and when every
call succeeds it returns no error, has reverted exactly the applied versions
above the target, in strictly descending order, and leaves applied exactly the
versions at or below the target that were applied. -/
theorem downToLoop_spec (env : Env) (service : String) (ms : Migrations) (t : Int)
    (hcat : ValidCatalog service ms) :
    ∀ (fuel : Nat) (w : World) (L : List LedgerRow), w.db.ledger = some L →
      (∀ v, Applied service L v → ∃ m ∈ ms, m.Version = v) →
      appliedCount service L < fuel →
      ∃ (err : Option Err) (w1 : World) (recs : List RunRecord),
        downToLoop env service ms t fuel w = some (err, w1) ∧
        w1.trace = w.trace ++ recs ∧
        (∀ r ∈ recs, r.direction = false) ∧
        (∀ r rest, recs = r :: rest → r.Version = currentVersion service w.db) ∧
        ((∀ r ∈ recs, r.ok = true) →
          err = none ∧
          (recs.map (fun r => r.Version)).Pairwise (fun a b => b < a) ∧
          (∀ v, v ∈ recs.map (fun r => r.Version) ↔ Applied service L v ∧ t < v) ∧
          ∃ L1, w1.db.ledger = some L1 ∧
            ∀ u, Applied service L1 u ↔ Applied service L u ∧ u ≤ t) := by
  intro fuel
  induction fuel with
  | zero => intro w L _ _ h; exact absurd h (Nat.not_lt_zero _)
  | succ fuel ih =>
    intro w L hL hent hfuel
    obtain ⟨c1, c2, c3⟩ := currentVersion_spec service w.db L hL
    unfold downToLoop
    rw [GetDBVersion_of_table env service w L hL]
    simp only []
    cases hcur : ms.Current (currentVersion service w.db) with
    | error e =>
      have hno := Current_error ms _ e hcur
      have hnone : ∀ u, ¬ Applied service L u := by
        intro u hu
        obtain ⟨m, hm, hv⟩ := hent _ (c2 ⟨u, hu⟩)
        exact hno m hm hv
      refine ⟨none, _, [], rfl, by simp [World.println], by simp, by simp, fun _ => ?_⟩
      refine ⟨rfl, by simp, ?_, L, by simpa [World.println] using hL, ?_⟩
      · intro v
        simp only [List.map_nil, List.not_mem_nil, false_iff]
        exact fun h => hnone v h.1
      · intro u
        exact ⟨fun h => absurd h (hnone u), fun h => h.1⟩
    | ok current =>
      obtain ⟨hmem, hver⟩ := Current_ok ms _ current hcur
      simp only []
      by_cases hle : current.Version ≤ t
      · rw [if_pos hle]
        refine ⟨none, _, [], rfl, by simp [World.println], by simp, by simp, fun _ => ?_⟩
        refine ⟨rfl, by simp, ?_, L, by simpa [World.println] using hL, ?_⟩
        · intro v
          simp only [List.map_nil, List.not_mem_nil, false_iff]
          rintro ⟨h1, h2⟩
          have := c1 v h1
          omega
        · intro u
          refine ⟨fun h => ⟨h, ?_⟩, fun h => h.1⟩
          have := c1 u h
          omega
      · rw [if_neg hle]
        have hsrc := hcat.runnable current hmem
        have hsvc := hcat.ofService current hmem
        have hpos := hcat.positive current hmem
        have happ : Applied service L (currentVersion service w.db) := by
          by_contra hc
          have : ∀ u, ¬ Applied service L u := fun u hu => hc (c2 ⟨u, hu⟩)
          have := c3 this
          omega
        obtain ⟨he, hdb, htr⟩ := Down_effect current env w
        cases hd : current.Down env w with
        | mk e1 w2 =>
          rw [hd] at he hdb htr
          simp only [] at he hdb htr
          cases e1 with
          | some e =>
            refine ⟨some e, w2, [⟨current.Version, false, false⟩], rfl, ?_, by simp, ?_, ?_⟩
            · rw [htr, ← he]
              rfl
            · intro r rest h
              cases h
              exact hver
            · intro hall
              have := hall _ (List.mem_singleton_self _)
              simp at this
          | none =>
            obtain ⟨L0, L2, hL0, hL2, hA⟩ := Down_ok_applied current env w (by rw [hd]) hsrc
            rw [hd] at hL2
            simp only [] at hL2
            have e0 : L0 = L := by
              rw [hL] at hL0
              exact (Option.some.inj hL0).symm
            subst e0
            have hA2 : ∀ u, Applied service L2 u ↔
                u ≠ currentVersion service w.db ∧ Applied service L0 u := by
              intro u
              rw [hA]
              constructor
              · rintro ⟨a1, a2⟩
                exact ⟨fun e => a1 ⟨hsvc, by rw [hver, e]⟩, a2⟩
              · rintro ⟨a1, a2⟩
                exact ⟨fun e => a1 (by rw [← e.2, hver]), a2⟩
            have hcount := appliedCount_lt service L0 L2 _ hA2 happ
            obtain ⟨err, w1, recs, g1, g2, g3, -, g4⟩ := ih w2 L2 hL2
              (fun v hv => hent v ((hA2 v).mp hv).2) (by omega)
            refine ⟨err, w1, ⟨current.Version, false, true⟩ :: recs, g1, ?_, ?_, ?_, ?_⟩
            · rw [g2, htr, ← he]
              simp
            · intro r hr
              rcases List.mem_cons.mp hr with h | h
              · rw [h]
              · exact g3 r h
            · intro r rest h
              cases h
              exact hver
            · intro hall
              obtain ⟨k1, k2, k3, L1, k4, k5⟩ :=
                g4 (fun r hr => hall r (List.mem_cons_of_mem _ hr))
              refine ⟨k1, ?_, ?_, L1, k4, ?_⟩
              · simp only [List.map_cons, List.pairwise_cons]
                refine ⟨?_, k2⟩
                intro v hv
                obtain ⟨b1, b2⟩ := (hA2 v).mp ((k3 v).mp hv).1
                have := c1 v b2
                rw [hver]
                exact lt_of_le_of_ne this b1
              · intro v
                simp only [List.map_cons, List.mem_cons]
                constructor
                · rintro (h | h)
                  · rw [h, hver]
                    exact ⟨happ, by rw [← hver]; omega⟩
                  · obtain ⟨b1, b2⟩ := (k3 v).mp h
                    exact ⟨((hA2 v).mp b1).2, b2⟩
                · rintro ⟨b1, b2⟩
                  by_cases hv : v = current.Version
                  · exact Or.inl hv
                  · exact Or.inr ((k3 v).mpr ⟨(hA2 v).mpr ⟨by rw [← hver]; exact hv, b1⟩, b2⟩)
              · intro u
                rw [k5, hA2]
                constructor
                · rintro ⟨⟨-, b2⟩, b3⟩
                  exact ⟨b2, b3⟩
                · rintro ⟨b2, b3⟩
                  refine ⟨⟨?_, b2⟩, b3⟩
                  rw [← hver]
                  omega

/-- C6. For every catalog of distinct versions, every ledger whose applied
versions all have catalog entries, and every target version `t`: `DownTo(t)`
returns; it calls `Down` and nothing else, the first time on the entry of the
current version it has read; if every revert succeeds it returns no error, has
reverted exactly the applied versions greater than `t`, in strictly descending
order, and leaves the current version equal to the largest applied version
`≤ t` (0 if there is none).  It also returns no error, doing nothing, when the
current version has no catalog entry. -/
theorem DownTo_reverts_above_target (env : Env) (service dir : String) (t : Int) (w : World)
    (L : List LedgerRow) (ms : Migrations) (fuel : Nat)
    (hc : env.CollectMigrations service dir = .ok ms)
    (hcat : ValidCatalog service ms)
    (hL : w.db.ledger = some L)
    (hfuel : L.length < fuel) :
    ((∀ v, Applied service L v → ∃ m ∈ ms, m.Version = v) →
      ∃ (err : Option Err) (w1 : World) (recs : List RunRecord),
        DownTo env service dir t fuel w = some (err, w1) ∧
        w1.trace = w.trace ++ recs ∧
        (∀ r ∈ recs, r.direction = false) ∧
        (∀ r rest, recs = r :: rest → r.Version = currentVersion service w.db) ∧
        ((∀ r ∈ recs, r.ok = true) →
          err = none ∧
          (recs.map (fun r => r.Version)).Pairwise (fun a b => b < a) ∧
          (∀ v, v ∈ recs.map (fun r => r.Version) ↔ Applied service L v ∧ t < v) ∧
          (∀ u, Applied service L u → u ≤ t → u ≤ currentVersion service w1.db) ∧
          ((∃ u, Applied service L u ∧ u ≤ t) →
            Applied service L (currentVersion service w1.db) ∧
              currentVersion service w1.db ≤ t) ∧
          ((∀ u, Applied service L u → ¬ u ≤ t) → currentVersion service w1.db = 0))) ∧
    (∀ e, ms.Current (currentVersion service w.db) = .error e →
      ∃ w1, DownTo env service dir t fuel w = some (none, w1) ∧
        w1.db = w.db ∧ w1.trace = w.trace) := by
  have hD : DownTo env service dir t fuel w = downToLoop env service ms t fuel w := by
    unfold DownTo
    rw [hc]
  constructor
  · intro hent
    obtain ⟨err, w1, recs, g1, g2, g3, g3b, g4⟩ := downToLoop_spec env service ms t hcat fuel w L hL
      hent (lt_of_le_of_lt (appliedCount_le_length service L) hfuel)
    refine ⟨err, w1, recs, by rw [hD]; exact g1, g2, g3, g3b, fun hall => ?_⟩
    obtain ⟨k1, k2, k3, L1, k4, k5⟩ := g4 hall
    obtain ⟨c1, c2, c3⟩ := currentVersion_spec service w1.db L1 k4
    refine ⟨k1, k2, k3, ?_, ?_, ?_⟩
    · intro u hu hut
      exact c1 u ((k5 u).mpr ⟨hu, hut⟩)
    · rintro ⟨u, hu, hut⟩
      exact (k5 _).mp (c2 ⟨u, (k5 u).mpr ⟨hu, hut⟩⟩)
    · intro hnone
      exact c3 (fun u hu => hnone u ((k5 u).mp hu).1 ((k5 u).mp hu).2)
  · intro e he
    cases fuel with
    | zero => exact absurd hfuel (Nat.not_lt_zero _)
    | succ fuel =>
      refine ⟨w.println (noMigrationsLine (currentVersion service w.db)), ?_, rfl, rfl⟩
      rw [hD]
      unfold downToLoop
      rw [GetDBVersion_of_table env service w L hL]
      simp only [he]

/-- C6, at a concrete input: with the catalog 1, 2, 3 all applied, `DownTo(1)`
returns no error, reverts 3 and then 2, and leaves the current version at 1. -/
theorem DownTo_reverts_above_target_witness :
    (DownTo (exampleEnv []) "default" "migrations" 1 4 (worldWith allApplied)).map
        (fun r => (r.1, r.2.trace)) =
      some (none, [⟨3, false, true⟩, ⟨2, false, true⟩]) ∧
    (DownTo (exampleEnv []) "default" "migrations" 1 4 (worldWith allApplied)).map
        (fun r => currentVersion "default" r.2.db) = some 1 ∧
    ∃ (err : Option Err) (w1 : World) (recs : List RunRecord),
      DownTo (exampleEnv []) "default" "migrations" 1 4 (worldWith allApplied) = some (err, w1) ∧
      w1.trace = (worldWith allApplied).trace ++ recs ∧
      (∀ r ∈ recs, r.direction = false) ∧
      (∀ r rest, recs = r :: rest →
        r.Version = currentVersion "default" (worldWith allApplied).db) ∧
      ((∀ r ∈ recs, r.ok = true) →
        err = none ∧
        (recs.map (fun r => r.Version)).Pairwise (fun a b => b < a) ∧
        (∀ v, v ∈ recs.map (fun r => r.Version) ↔ Applied "default" allApplied v ∧ 1 < v) ∧
        (∀ u, Applied "default" allApplied u → u ≤ 1 → u ≤ currentVersion "default" w1.db) ∧
        ((∃ u, Applied "default" allApplied u ∧ u ≤ 1) →
          Applied "default" allApplied (currentVersion "default" w1.db) ∧
            currentVersion "default" w1.db ≤ 1) ∧
        ((∀ u, Applied "default" allApplied u → ¬ u ≤ 1) →
          currentVersion "default" w1.db = 0)) :=
  ⟨by decide, by decide,
    (DownTo_reverts_above_target (exampleEnv []) "default" "migrations" 1
      (worldWith allApplied) allApplied exampleCatalog 4 rfl exampleCatalog_valid rfl
      (by decide)).1
      (by
        intro v hv
        obtain ⟨r, hr, hrv, -⟩ := Applied_row "default" allApplied v hv
        simp only [allApplied, List.mem_cons, List.mem_singleton, List.not_mem_nil, or_false] at hr
        rcases hr with rfl | rfl | rfl
        · exact ⟨goStep 3 "00003_c.go" (some renameRoot) none, by simp [exampleCatalog], hrv⟩
        · exact ⟨scriptStep 2 "00002_b.sql", by simp [exampleCatalog], hrv⟩
        · exact ⟨scriptStep 1 "00001_a.sql", by simp [exampleCatalog], hrv⟩)⟩

/-! ### A failed full-ledger query -/

/-- The loop of `dbMigrationsStatus` fails only at a row that does not scan,
and with the error of that scan. -/
theorem statusLoop_error (rows : Rows) (init : StatusMap) (e : Err)
    (h : statusLoop rows init = .error e) :
    ∃ e0, .error e0 ∈ rows ∧ e = Wrap e0 "failed to scan row" := by
  induction rows generalizing init with
  | nil => simp [statusLoop] at h
  | cons r rest ih =>
    cases r with
    | error e0 =>
      simp only [statusLoop, Except.error.injEq] at h
      exact ⟨e0, List.mem_cons_self _ _, h.symm⟩
    | ok row =>
      simp only [statusLoop] at h
      split_ifs at h
      · obtain ⟨e0, h1, h2⟩ := ih _ h
        exact ⟨e0, List.mem_cons_of_mem _ h1, h2⟩
      · obtain ⟨e0, h1, h2⟩ := ih _ h
        exact ⟨e0, List.mem_cons_of_mem _ h1, h2⟩

/-- C13. `dbMigrationsStatus` returns an error only when scanning a row fails.
When the full-ledger query itself fails, whatever the ledger holds, it returns
an empty map and no error, and `Reset` then reverts no migration at all and
returns success, for every catalog: it leaves the database, the log and the
history of calls as it found them. -/
theorem failed_query_gives_empty_status_and_idle_Reset (env : Env) (service dir : String)
    (w : World) (ms : Migrations) (e : Err)
    (hc : env.CollectMigrations service dir = .ok ms)
    (hq : (dbVersionQuery env service w).1 = .error e) :
    (dbMigrationsStatus env service w).1 = .ok (fun _ => none) ∧
    (Reset env service dir w).1 = none ∧
    (Reset env service dir w).2.db = w.db ∧
    (Reset env service dir w).2.trace = w.trace ∧
    (Reset env service dir w).2.log = w.log ∧
    (∀ (w0 : World) (e1 : Err), (dbMigrationsStatus env service w0).1 = .error e1 →
      ∃ rows e0, (dbVersionQuery env service w0).1 = .ok rows ∧ .error e0 ∈ rows ∧
        e1 = Wrap e0 "failed to scan row") ∧
    (∀ (rows : Rows) (init : StatusMap) (e1 : Err), statusLoop rows init = .error e1 →
      ∃ e0, .error e0 ∈ rows ∧ e1 = Wrap e0 "failed to scan row") := by
  obtain ⟨hst, hReset⟩ := Reset_of_failed_query env service dir w ms e hc hq
  refine ⟨hst, by rw [hReset], by rw [hReset], by rw [hReset], by rw [hReset], ?_,
    statusLoop_error⟩
  intro w0 e1 h1
  unfold dbMigrationsStatus at h1
  cases hx : dbVersionQuery env service w0 with
  | mk r w1 =>
    rw [hx] at h1
    cases r with
    | error e2 => simp at h1
    | ok rows =>
      simp only [] at h1
      obtain ⟨e0, g1, g2⟩ := statusLoop_error rows _ e1 h1
      exact ⟨rows, e0, rfl, g1, g2⟩

/-- C13, at a concrete input: with versions 1, 2 and 3 applied and the round
trip of the full-ledger query failing, the status map is empty and `Reset` with
the example catalog returns success without a single call of `Down`, the three
versions still applied.  When the query succeeds and its first row does not
scan, `dbMigrationsStatus` returns the error of that scan. -/
theorem failed_query_gives_empty_status_and_idle_Reset_witness :
    (dbVersionQuery (exampleEnv [0]) "default" (worldWith allApplied)).1 =
      .error "connection lost" ∧
    (Reset (exampleEnv [0]) "default" "migrations" (worldWith allApplied)).1 = none ∧
    (Reset (exampleEnv [0]) "default" "migrations" (worldWith allApplied)).2.trace = [] ∧
    (Reset (exampleEnv [0]) "default" "migrations" (worldWith allApplied)).2.db.ledger =
      some allApplied ∧
    (dbMigrationsStatus (exampleEnv [2]) "default" (worldWith allApplied)).1 =
      .error (Wrap "connection lost" "failed to scan row") ∧
    (Reset (exampleEnv [0]) "default" "migrations" (worldWith allApplied)).2.db =
      (worldWith allApplied).db :=
  ⟨rfl, by decide, by decide, by decide, rfl,
    (failed_query_gives_empty_status_and_idle_Reset (exampleEnv [0]) "default" "migrations"
      (worldWith allApplied) exampleCatalog "connection lost" rfl rfl).2.2.1⟩

/-! ### A script step with an empty statement list -/

theorem runSQLMigration_nil_schema (env : Env) (useTx : Bool) (service : String) (v : Int)
    (direction : Bool) (w : World) :
    (runSQLMigration env [] useTx service v direction w).2.db.schema = w.db.schema := by
  cases h0 : env.fault w.tick <;> cases h1 : env.fault (w.tick + 1) <;>
    cases h2 : env.fault (w.tick + 2) <;> cases hl : w.db.ledger <;>
    cases direction <;> cases useTx <;>
    simp [runSQLMigration, Begin, Exec, Commit, Rollback, execStatements, Statement.apply,
      h0, h1, h2, hl]

theorem runSQLMigration_nil_ok (env : Env) (useTx : Bool) (service : String) (v : Int)
    (direction : Bool) (w : World) (hf : ∀ n, env.fault n = none) (hl : w.db.ledger ≠ none) :
    (runSQLMigration env [] useTx service v direction w).1 = none := by
  cases hl2 : w.db.ledger with
  | none => exact absurd hl2 hl
  | some L =>
    cases direction <;> cases useTx <;>
      simp [runSQLMigration, Begin, Exec, Commit, Rollback, execStatements, Statement.apply,
        hf, hl2]

theorem report_ne (b : String) : "OK    " ++ b ≠ "EMPTY " ++ b := by
  intro h
  have := congrArg String.data h
  simp [String.data_append] at this

/-- A SQL script step whose file opens and parses: what `Migration.run` returns
and reports, in terms of `runSQLMigration` on the parsed statements. -/
theorem run_script_report (m : Migration) (env : Env) (direction : Bool) (w : World)
    (f : String) (statements : List String) (useTx : Bool)
    (hsql : filepath.Ext m.Source = ".sql")
    (hopen : env.Open m.Source = .ok f)
    (hparse : env.parseSQLMigration f direction = .ok (statements, useTx)) :
    ((m.run env direction w).1 = none ↔
      (runSQLMigration env statements useTx m.Service m.Version direction w).1 = none) ∧
    (m.run env direction w).2.db =
      (runSQLMigration env statements useTx m.Service m.Version direction w).2.db ∧
    ((m.run env direction w).1 = none →
      (m.run env direction w).2.log =
        w.log ++ [if statements.length > 0 then "OK    " ++ filepath.Base m.Source
          else "EMPTY " ++ filepath.Base m.Source]) ∧
    ((m.run env direction w).1 ≠ none → (m.run env direction w).2.log = w.log) := by
  have hlog := (runSQLMigration_effect env statements useTx m.Service m.Version direction w).1
  unfold Migration.run Migration.runSQL
  rw [if_pos hsql]
  simp only [hopen, hparse]
  cases hr : runSQLMigration env statements useTx m.Service m.Version direction w with
  | mk e1 w1 =>
    rw [hr] at hlog
    simp only [] at hlog
    cases e1 with
    | some e => simp [hlog]
    | none =>
      by_cases hlen : statements.length > 0
      · simp [hlen, World.println, hlog]
      · simp [hlen, World.println, hlog]

/-- A SQL script step, in either transaction mode.  If its statement list for
the requested direction is empty, executing the step runs no schema statement;
it returns success if the ledger table exists and no database call fails; and
whenever it returns success it has reported `EMPTY` and, on Up or in
transactional mode, has made the ledger write of the direction: the applied
event is inserted on Up, the events of the version are removed on Down.  A
successful step reports `OK` exactly when the statement list is non-empty; a
failed step reports nothing. -/
theorem empty_script_step_effect (m : Migration) (env : Env)
    (direction : Bool) (w : World) (f : String) (statements : List String) (useTx : Bool)
    (hsql : filepath.Ext m.Source = ".sql")
    (hopen : env.Open m.Source = .ok f)
    (hparse : env.parseSQLMigration f direction = .ok (statements, useTx)) :
    (statements = [] →
      (m.run env direction w).2.db.schema = w.db.schema ∧
      ((∀ n, env.fault n = none) → w.db.ledger ≠ none → (m.run env direction w).1 = none) ∧
      ((m.run env direction w).1 = none →
        (m.run env direction w).2.log = w.log ++ ["EMPTY " ++ filepath.Base m.Source] ∧
        ∃ L, w.db.ledger = some L ∧
          (direction = true →
            (m.run env direction w).2.db.ledger =
              some (⟨m.Version, m.Service, true⟩ :: L)) ∧
          (direction = false → useTx = true →
            (m.run env direction w).2.db.ledger =
              some (L.filter (fun r => ¬ (r.version_id = m.Version ∧ r.service = m.Service)))))) ∧
    ((m.run env direction w).1 = none →
      ((m.run env direction w).2.log = w.log ++ ["OK    " ++ filepath.Base m.Source] ↔
        statements ≠ []) ∧
      ((m.run env direction w).2.log = w.log ++ ["EMPTY " ++ filepath.Base m.Source] ↔
        statements = [])) ∧
    ((m.run env direction w).1 ≠ none → (m.run env direction w).2.log = w.log) := by
  obtain ⟨hiff, hdb, hrep, hfail⟩ := run_script_report m env direction w f statements useTx
    hsql hopen hparse
  refine ⟨?_, ?_, hfail⟩
  · intro hnil
    subst hnil
    refine ⟨?_, ?_, ?_⟩
    · rw [hdb]
      exact runSQLMigration_nil_schema env useTx m.Service m.Version direction w
    · intro hf hl
      exact hiff.mpr (runSQLMigration_nil_ok env useTx m.Service m.Version direction w hf hl)
    · intro hok
      refine ⟨by simpa using hrep hok, ?_⟩
      obtain ⟨L, hL, hl⟩ := (runSQLMigration_effect env [] useTx m.Service m.Version
        direction w).2.2.2 (hiff.mp hok)
      refine ⟨L, hL, ?_, ?_⟩
      · intro hd
        rw [hdb, hl]
        simp [ledgerWrite, hd]
      · intro hd htx
        rw [hdb, hl]
        simp [ledgerWrite, hd, htx]
  · intro hok
    have h := hrep hok
    by_cases hnil : statements = []
    · subst hnil
      simp only [List.length_nil, gt_iff_lt, lt_self_iff_false, if_false] at h
      rw [h]
      refine ⟨?_, by simp⟩
      simp only [ne_eq, not_true_eq_false, iff_false]
      intro hc
      exact report_ne _ (List.singleton_inj.mp (List.append_cancel_left hc)).symm
    · have hlen : statements.length > 0 := List.length_pos.mpr hnil
      rw [if_pos hlen] at h
      rw [h]
      refine ⟨by simp [hnil], ?_⟩
      simp only [hnil, iff_false]
      intro hc
      exact report_ne _ (List.singleton_inj.mp (List.append_cancel_left hc))

/-- C11, at the failing input.  With versions 1, 2 and 3 applied, `Down` of
`00002_b.sql`, whose Down section is empty and which runs without a
transaction, returns success, runs no schema statement and reports `EMPTY`, but
it does not remove the events of version 2: it inserts one more event, not
applied, and the applied one stays.  `Down` of `00001_a.sql`, empty as well but
in a transaction, removes the events of version 1. -/
theorem empty_Down_without_transaction_inserts_event :
    (noDownEnv []).parseSQLMigration "00002_b.sql" false = .ok ([], false) ∧
    ((scriptStep 2 "00002_b.sql").run (noDownEnv []) false (worldWith allApplied)).1 = none ∧
    ((scriptStep 2 "00002_b.sql").run (noDownEnv []) false (worldWith allApplied)).2.log =
      ["EMPTY 00002_b.sql"] ∧
    ((scriptStep 2 "00002_b.sql").run (noDownEnv []) false (worldWith allApplied)).2.db =
      { schema := [],
        ledger := some [⟨2, "default", false⟩, ⟨3, "default", true⟩, ⟨2, "default", true⟩,
          ⟨1, "default", true⟩] } ∧
    (noDownEnv []).parseSQLMigration "00001_a.sql" false = .ok ([], true) ∧
    ((scriptStep 1 "00001_a.sql").run (noDownEnv []) false (worldWith allApplied)).2.log =
      ["EMPTY 00001_a.sql"] ∧
    ((scriptStep 1 "00001_a.sql").run (noDownEnv []) false (worldWith allApplied)).2.db =
      { schema := [], ledger := some [⟨3, "default", true⟩, ⟨2, "default", true⟩] } :=
  ⟨rfl, by decide, by decide, by decide, rfl, by decide, by decide⟩

/-! ### `DownTo` terminates -/

theorem appliedCount_pos (service : String) (L : List LedgerRow) (c : Int)
    (h : Applied service L c) : 0 < appliedCount service L := by
  unfold appliedCount
  exact Finset.card_pos.mpr ⟨c, (mem_appliedFinset service L c).mpr h⟩

/-- The entry `Migrations.Current` finds for the current version of a valid
catalog is applied, and a successful `Down` of it takes exactly that version
out of the applied versions and makes the current version strictly smaller. -/
theorem Down_of_current_lowers (env : Env) (service : String) (ms : Migrations)
    (hcat : ValidCatalog service ms) (w : World) (L : List LedgerRow) (current : Migration)
    (hL : w.db.ledger = some L)
    (hcur : ms.Current (currentVersion service w.db) = .ok current) :
    Applied service L (currentVersion service w.db) ∧
    ((current.Down env w).1 = none →
      ∃ L2, (current.Down env w).2.db.ledger = some L2 ∧
        (∀ u, Applied service L2 u ↔ u ≠ currentVersion service w.db ∧ Applied service L u) ∧
        currentVersion service (current.Down env w).2.db < currentVersion service w.db) := by
  obtain ⟨c1, c2, c3⟩ := currentVersion_spec service w.db L hL
  obtain ⟨hmem, hver⟩ := Current_ok ms _ current hcur
  have hsrc := hcat.runnable current hmem
  have hsvc := hcat.ofService current hmem
  have hpos := hcat.positive current hmem
  have happ : Applied service L (currentVersion service w.db) := by
    by_contra hc
    have : ∀ u, ¬ Applied service L u := fun u hu => hc (c2 ⟨u, hu⟩)
    have := c3 this
    omega
  refine ⟨happ, fun hok => ?_⟩
  obtain ⟨L0, L2, hL0, hL2, hA⟩ := Down_ok_applied current env w hok hsrc
  have e0 : L0 = L := by
    rw [hL] at hL0
    exact (Option.some.inj hL0).symm
  subst e0
  have hA2 : ∀ u, Applied service L2 u ↔
      u ≠ currentVersion service w.db ∧ Applied service L0 u := by
    intro u
    rw [hA]
    constructor
    · rintro ⟨a1, a2⟩
      exact ⟨fun e => a1 ⟨hsvc, by rw [hver, e]⟩, a2⟩
    · rintro ⟨a1, a2⟩
      exact ⟨fun e => a1 (by rw [← e.2, hver]), a2⟩
  refine ⟨L2, hL2, hA2, ?_⟩
  obtain ⟨d1, d2, d3⟩ := currentVersion_spec service (current.Down env w).2.db L2 hL2
  by_cases hex : ∃ u, Applied service L2 u
  · obtain ⟨b1, b2⟩ := (hA2 _).mp (d2 hex)
    exact lt_of_le_of_ne (c1 _ b2) b1
  · push_neg at hex
    rw [d3 hex]
    omega

/-- The loop of `DownTo` from a world with a ledger table, for a valid
catalog: with more iterations at hand than there are applied versions it
returns; it makes at most as many calls of `Down` as there are applied
versions; only the last call can have failed; and it returns an error exactly
when that call failed. -/
theorem downToLoop_terminates (env : Env) (service : String) (ms : Migrations) (t : Int)
    (hcat : ValidCatalog service ms) :
    ∀ (fuel : Nat) (w : World) (L : List LedgerRow), w.db.ledger = some L →
      appliedCount service L < fuel →
      ∃ (err : Option Err) (w1 : World) (recs : List RunRecord),
        downToLoop env service ms t fuel w = some (err, w1) ∧
        w1.trace = w.trace ++ recs ∧
        recs.length ≤ appliedCount service L ∧
        (∀ r ∈ recs, r.direction = false) ∧
        (∀ r ∈ recs.dropLast, r.ok = true) ∧
        (err = none ↔ ∀ r ∈ recs, r.ok = true) := by
  intro fuel
  induction fuel with
  | zero => intro w L _ h; exact absurd h (Nat.not_lt_zero _)
  | succ fuel ih =>
    intro w L hL hfuel
    unfold downToLoop
    rw [GetDBVersion_of_table env service w L hL]
    simp only []
    cases hcur : ms.Current (currentVersion service w.db) with
    | error e =>
      exact ⟨none, _, [], rfl, by simp [World.println], by simp, by simp, by simp, by simp⟩
    | ok current =>
      obtain ⟨hmem, hver⟩ := Current_ok ms _ current hcur
      simp only []
      by_cases hle : current.Version ≤ t
      · rw [if_pos hle]
        exact ⟨none, _, [], rfl, by simp [World.println], by simp, by simp, by simp, by simp⟩
      · rw [if_neg hle]
        obtain ⟨happ, hlow⟩ := Down_of_current_lowers env service ms hcat w L current hL hcur
        have hpos := appliedCount_pos service L _ happ
        obtain ⟨he, hdb, htr⟩ := Down_effect current env w
        cases hd : current.Down env w with
        | mk e1 w2 =>
          rw [hd] at he hdb htr hlow
          simp only [] at he hdb htr hlow
          cases e1 with
          | some e =>
            refine ⟨some e, w2, [⟨current.Version, false, false⟩], rfl, ?_, by simpa using hpos,
              by simp, by simp, by simp⟩
            rw [htr, ← he]
            rfl
          | none =>
            obtain ⟨L2, hL2, hA2, -⟩ := hlow rfl
            have hcount := appliedCount_lt service L L2 _ hA2 happ
            obtain ⟨err, w1, recs, g1, g2, g3, g4, g5, g6⟩ := ih w2 L2 hL2 (by omega)
            refine ⟨err, w1, ⟨current.Version, false, true⟩ :: recs, g1, ?_, ?_, ?_, ?_, ?_⟩
            · rw [g2, htr, ← he]
              simp
            · simp only [List.length_cons]
              omega
            · intro r hr
              rcases List.mem_cons.mp hr with h | h
              · rw [h]
              · exact g4 r h
            · intro r hr
              cases recs with
              | nil => simp at hr
              | cons r1 rest =>
                rw [List.dropLast_cons₂] at hr
                rcases List.mem_cons.mp hr with h | h
                · rw [h]
                · exact g5 r h
            · rw [g6]
              constructor
              · intro h r hr
                rcases List.mem_cons.mp hr with h1 | h1
                · rw [h1]
                · exact h r h1
              · intro h r hr
                exact h r (List.mem_cons_of_mem _ hr)

/-- C12. For every ledger, every catalog and every target version, `DownTo`
terminates: with more iterations at hand than there are applied versions it
returns, after at most as many calls of `Down` as there are applied versions;
every successful `Down` of the current entry makes the current version strictly
smaller than it was before that iteration; and a failing read or a failing
revert ends the loop at once with that error (so that only the last call of
`Down` can have failed, and an error is returned exactly when it did). -/
theorem DownTo_terminates (env : Env) (service dir : String) (t : Int) (w : World)
    (ms : Migrations)
    (hc : env.CollectMigrations service dir = .ok ms)
    (hcat : ValidCatalog service ms) :
    (∀ (L : List LedgerRow) (fuel : Nat), w.db.ledger = some L →
      appliedCount service L < fuel →
      ∃ (err : Option Err) (w1 : World) (recs : List RunRecord),
        DownTo env service dir t fuel w = some (err, w1) ∧
        w1.trace = w.trace ++ recs ∧
        recs.length ≤ appliedCount service L ∧
        appliedCount service L ≤ L.length ∧
        (∀ r ∈ recs, r.direction = false) ∧
        (∀ r ∈ recs.dropLast, r.ok = true) ∧
        (err = none ↔ ∀ r ∈ recs, r.ok = true)) ∧
    (w.db.ledger = none → ∀ fuel : Nat, 0 < fuel →
      ∃ (err : Option Err) (w1 : World),
        DownTo env service dir t fuel w = some (err, w1) ∧ w1.trace = w.trace) ∧
    (∀ (L : List LedgerRow) (current : Migration), w.db.ledger = some L →
      ms.Current (currentVersion service w.db) = .ok current →
      (current.Down env w).1 = none →
      currentVersion service (current.Down env w).2.db < currentVersion service w.db) ∧
    (∀ (fuel : Nat) (v : Int) (e : Err) (w1 : World),
      GetDBVersion env service w = ((v, some e), w1) →
      DownTo env service dir t (fuel + 1) w = some (some e, w1)) ∧
    (∀ (fuel : Nat) (L : List LedgerRow) (current : Migration) (e : Err) (w2 : World),
      w.db.ledger = some L →
      ms.Current (currentVersion service w.db) = .ok current →
      t < current.Version →
      current.Down env w = (some e, w2) →
      DownTo env service dir t (fuel + 1) w = some (some e, w2)) := by
  have hD : ∀ fuel, DownTo env service dir t fuel w = downToLoop env service ms t fuel w := by
    intro fuel
    unfold DownTo
    rw [hc]
  refine ⟨?_, ?_, ?_, ?_, ?_⟩
  · intro L fuel hL hfuel
    obtain ⟨err, w1, recs, g1, g2, g3, g4, g5, g6⟩ :=
      downToLoop_terminates env service ms t hcat fuel w L hL hfuel
    exact ⟨err, w1, recs, by rw [hD]; exact g1, g2, g3, appliedCount_le_length service L,
      g4, g5, g6⟩
  · intro hl fuel hfuel
    cases fuel with
    | zero => exact absurd hfuel (Nat.lt_irrefl 0)
    | succ fuel =>
      rw [hD]
      unfold downToLoop GetDBVersion ledgerEvents
      rw [hl]
      simp only []
      have hw := Exec_world env .createVersionTable w.db w
      cases hx : Exec env .createVersionTable w.db w with
      | mk e rest =>
        obtain ⟨d1, w1⟩ := rest
        rw [hx] at hw
        simp only [] at hw
        subst hw
        cases e with
        | some e => exact ⟨some e, _, rfl, rfl⟩
        | none =>
          simp only []
          cases hcur : ms.Current 0 with
          | error e => exact ⟨none, _, rfl, rfl⟩
          | ok current =>
            obtain ⟨hmem, hver⟩ := Current_ok ms _ current hcur
            have := hcat.positive current hmem
            omega
  · intro L current hL hcur hok
    obtain ⟨L2, -, -, hlt⟩ :=
      (Down_of_current_lowers env service ms hcat w L current hL hcur).2 hok
    exact hlt
  · intro fuel v e w1 hg
    rw [hD]
    unfold downToLoop
    rw [hg]
  · intro fuel L current e w2 hL hcur ht hd
    rw [hD]
    unfold downToLoop
    rw [GetDBVersion_of_table env service w L hL]
    simp only [hcur]
    rw [if_neg (not_le.mpr ht), hd]

/-- C12, at a concrete input: with versions 1, 2 and 3 applied and the fourth
round trip failing, `DownTo(0)` reverts version 3, fails to revert version 2
and returns that error after these two calls of `Down`; without a failure it
reverts 3, 2 and 1 and returns no error. -/
theorem DownTo_terminates_witness :
    appliedCount "default" allApplied = 3 ∧
    (DownTo (exampleEnv [3]) "default" "migrations" 0 4 (worldWith allApplied)).map
        (fun r => (r.1.isSome, r.2.trace)) =
      some (true, [⟨3, false, true⟩, ⟨2, false, false⟩]) ∧
    (DownTo (exampleEnv []) "default" "migrations" 0 4 (worldWith allApplied)).map
        (fun r => (r.1, r.2.trace)) =
      some (none, [⟨3, false, true⟩, ⟨2, false, true⟩, ⟨1, false, true⟩]) ∧
    ∃ (err : Option Err) (w1 : World) (recs : List RunRecord),
      DownTo (exampleEnv [3]) "default" "migrations" 0 4 (worldWith allApplied) =
        some (err, w1) ∧
      w1.trace = (worldWith allApplied).trace ++ recs ∧
      recs.length ≤ appliedCount "default" allApplied ∧
      appliedCount "default" allApplied ≤ allApplied.length ∧
      (∀ r ∈ recs, r.direction = false) ∧
      (∀ r ∈ recs.dropLast, r.ok = true) ∧
      (err = none ↔ ∀ r ∈ recs, r.ok = true) :=
  ⟨by decide, by decide, by decide,
    (DownTo_terminates (exampleEnv [3]) "default" "migrations" 0 (worldWith allApplied)
      exampleCatalog rfl exampleCatalog_valid).1 allApplied 4 rfl (by decide)⟩

end Goose
